import Mathlib

/-!
Shallow embedding of the `WordCounter` hash table (WordCounter.h /
WordCounter.cpp): a separate-chaining hash table mapping words to
occurrence counts, with load-factor driven growth and shrink through a
fixed ascending list of prime capacities.

Modelling conventions:
* A chain node (`Node` in the source: word, wordCount, next) becomes one
  element of a Lean list; a bucket chain is a `List (String × Nat)` with
  the head of the C++ list first.
* The bucket array `Node **wordTable` becomes a `List Bucket` of length
  `capacity`; the C++ read `wordTable[b]` becomes `List.getD b []` and the
  write becomes `List.set`.
* `std::hash<std::string>` is an arbitrary deterministic hash, modelled as
  a parameter `h : String → Nat`; the bucket index is `h word % capacity`
  exactly as in `getBucket`.
* C++ `int` counters are modelled as `Nat`.  The only subtractions the
  source performs (`totalWordCount -= toSubtract`, `uniqueWordCount--` in
  `updateWordCountsPostRemoval`) happen when an entry was just found and
  removed, and the well-formedness invariant `WF` proved below shows the
  counters dominate the subtrahends in every reachable state, so `Nat`
  and `int` arithmetic agree there.
* The `double` load-factor comparisons are modelled exactly by integer
  inequalities: `(double)u/c > 0.75` iff `4*u > 3*c` and
  `(double)u/c < 0.30` iff `10*u < 3*c`.  This is exact for the source's
  ranges: `u` and `c` are ints below 2^31 (hence exact doubles), the IEEE
  quotient `u/c` differs from the rational by at most 2^-53 of its value,
  the literal `0.750` is exactly representable, `0.30` differs from 3/10
  by at most 2^-54, while a rational `u/c` with `c ≤ 993815743` that is
  not equal to the threshold differs from it by at least `1/(10c) >
  2^-34`, far more than the rounding error, and when `u/c` equals the
  threshold exactly both sides round to the same double.
-/

namespace WordCounterModel

open scoped List

/-- `MIN_CAPACITY` from WordCounter.h. -/
def MIN_CAPACITY : Nat := 11

/-- `MAX_CAPACITY` from WordCounter.h. -/
def MAX_CAPACITY : Nat := 993815743

/-- `NEW_WORD_COUNT` from WordCounter.h (initial count of a new word). -/
def NEW_WORD_COUNT : Nat := 1

/-- The `primes` array in `WordCounter::getValidCapacity`, transcribed
verbatim from the source (first entry `MIN_CAPACITY`, last entry
`MAX_CAPACITY`). -/
def primesList : List Nat := [
  MIN_CAPACITY, 13, 17, 19, 23, 29, 31, 37, 43, 53, 67, 79, 97, 107,
  131, 157, 191, 223, 269, 331, 389, 461, 557, 673, 797, 967, 1151,
  1381, 1657, 1979, 2377, 2851, 3433, 4111, 4931, 5923, 7103, 8513,
  10211, 12251, 14699, 17657, 21169, 25409, 30491, 36583, 43889,
  52667, 63199, 75853, 91009, 109211, 131059, 157259, 188707,
  226451, 271753, 326087, 391331, 469583, 563489, 676171, 811411,
  973691, 1168451, 1402123, 1682531, 2019037, 2422873, 2907419,
  3488897, 4186673, 5024009, 6028807, 7234589, 8681483, 10417769,
  12501331, 15001603, 18001909, 21602311, 25922749, 31107317,
  37328761, 44794513, 53753431, 64504081, 77404907, 92885893,
  111463049, 133755659, 160506817, 192608173, 231129781, 277355759,
  332826869, 399392243, 479270713, 575124829, 690149821, 828179753,
  MAX_CAPACITY]

/-- `WordCounter::getValidCapacity`: linear scan of the prime array for the
first entry that the requested capacity is `≤`, falling back to
`MAX_CAPACITY` when the request exceeds every entry.  The argument is an
`Int` because the C++ parameter is an `int`. -/
def getValidCapacity (capacity : Int) : Nat :=
  match primesList.find? (fun primeNum => decide (capacity ≤ (Int.ofNat primeNum))) with
  | some primeNum => primeNum
  | none => MAX_CAPACITY

/-- One bucket chain: the C++ singly linked `Node` list, head first; each
element carries `(word, wordCount)`. -/
abbrev Bucket := List (String × Nat)

/-- The `WordCounter` state: `capacity`, `totalWordCount`,
`uniqueWordCount` and the bucket array `wordTable`. -/
structure WordCounter where
  capacity : Nat
  totalWordCount : Nat
  uniqueWordCount : Nat
  wordTable : List Bucket
  deriving Repr, DecidableEq

/-- `WordCounter::getBucket`: hash reduced modulo the capacity. -/
def getBucket (h : String → Nat) (word : String) (capacity : Nat) : Nat :=
  h word % capacity

/-- `WordCounter::getWordNode`: scan the chain at the word's bucket and
return the first node carrying the word (as the pair stored there), or
`none`. -/
def getWordNode (h : String → Nat) (wc : WordCounter) (word : String) :
    Option (String × Nat) :=
  (wc.wordTable.getD (getBucket h word wc.capacity) []).find?
    (fun e => e.1 == word)

/-- The in-place `wordNode->wordCount++` of `addWord`: bump the count of
the first node in the chain that carries the word. -/
def incrementFirst (word : String) : Bucket → Bucket
  | [] => []
  | e :: rest =>
      if e.1 = word then (e.1, e.2 + 1) :: rest else e :: incrementFirst word rest

/-- The unlink-and-delete of `removeWord`: drop the first node in the
chain that carries the word (the source's head case and interior-scan case
together do exactly this). -/
def eraseFirst (word : String) : Bucket → Bucket
  | [] => []
  | e :: rest => if e.1 = word then rest else e :: eraseFirst word rest

/-- One iteration of the inner rehash loop of `WordCounter::resize`:
prepend the entry to the bucket it hashes to under the new capacity. -/
def rehashInsert (h : String → Nat) (newCapacity : Nat)
    (t : List Bucket) (e : String × Nat) : List Bucket :=
  let newBucket := getBucket h e.1 newCapacity
  t.set newBucket (e :: t.getD newBucket [])

/-- `WordCounter::resize`: validate the requested capacity, allocate a
fresh null-initialised table, walk every old bucket head-to-tail
prepending each node into its new bucket, and adopt the new array and
capacity (counters untouched). -/
def resize (h : String → Nat) (wc : WordCounter) (newCapacity : Int) :
    WordCounter :=
  let nc := getValidCapacity newCapacity
  let newWordTable :=
    wc.wordTable.foldl (fun t chain => chain.foldl (rehashInsert h nc) t)
      (List.replicate nc ([] : Bucket))
  { wc with capacity := nc, wordTable := newWordTable }

/-- The state of `addWord`'s new-word branch right after
`wordTable[bucket] = new Node(word, NEW_WORD_COUNT, wordTable[bucket]);
uniqueWordCount++;` and before the growth check. -/
def insertPre (h : String → Nat) (wc : WordCounter) (word : String) :
    WordCounter :=
  let bucket := getBucket h word wc.capacity
  { wc with
    wordTable := wc.wordTable.set bucket
      ((word, NEW_WORD_COUNT) :: wc.wordTable.getD bucket []),
    uniqueWordCount := wc.uniqueWordCount + 1 }

/-- The state of `addWord`'s existing-word branch right after
`wordNode->wordCount++`. -/
def bumpPre (h : String → Nat) (wc : WordCounter) (word : String) :
    WordCounter :=
  let bucket := getBucket h word wc.capacity
  { wc with
    wordTable := wc.wordTable.set bucket
      (incrementFirst word (wc.wordTable.getD bucket [])) }

/-- `WordCounter::addWord`.  Returns the updated table and the returned
`int` word count.  In the new-word branch the returned count is
`wordTable[bucket]->wordCount` read right after the prepend, i.e.
`NEW_WORD_COUNT`; the growth check `getLoadFactor() > MAX_LOAD_FACTOR`
is the exact integer form `4 * uniqueWordCount > 3 * capacity` (see the
file comment), and `totalWordCount++` happens after the optional
resize in both branches. -/
def addWord (h : String → Nat) (wc : WordCounter) (word : String) :
    WordCounter × Nat :=
  match getWordNode h wc word with
  | none =>
      let wc1 := insertPre h wc word
      let wordCount := NEW_WORD_COUNT
      let wc2 :=
        if 3 * wc1.capacity < 4 * wc1.uniqueWordCount ∧
            wc1.capacity < MAX_CAPACITY then
          resize h wc1 ((wc1.capacity : Int) * 2)
        else wc1
      ({ wc2 with totalWordCount := wc2.totalWordCount + 1 }, wordCount)
  | some wordNode =>
      let wc1 := bumpPre h wc word
      ({ wc1 with totalWordCount := wc1.totalWordCount + 1 }, wordNode.2 + 1)

/-- The state of `removeWord`'s found-word branch right after the unlink
and `updateWordCountsPostRemoval(count)`, before the shrink check;
`wordNode` is the node `getWordNode` found. -/
def removePre (h : String → Nat) (wc : WordCounter) (word : String)
    (wordNode : String × Nat) : WordCounter :=
  let bucket := getBucket h word wc.capacity
  { wc with
    wordTable := wc.wordTable.set bucket
      (eraseFirst word (wc.wordTable.getD bucket [])),
    totalWordCount := wc.totalWordCount - wordNode.2,
    uniqueWordCount := wc.uniqueWordCount - 1 }

/-- `WordCounter::removeWord`.  Absent word: early return, before any
resize check.  Present word: unlink the node, subtract its full count
from `totalWordCount` and 1 from `uniqueWordCount`
(`updateWordCountsPostRemoval`), then shrink if
`getLoadFactor() < MIN_LOAD_FACTOR` (exact integer form
`10 * uniqueWordCount < 3 * capacity`) and the capacity is above the
minimum. -/
def removeWord (h : String → Nat) (wc : WordCounter) (word : String) :
    WordCounter :=
  match getWordNode h wc word with
  | none => wc
  | some wordNode =>
      let wc1 := removePre h wc word wordNode
      if 10 * wc1.uniqueWordCount < 3 * wc1.capacity ∧
          MIN_CAPACITY < wc1.capacity then
        resize h wc1 ((wc1.capacity : Int) / 2)
      else wc1

/-- `WordCounter::getWordCount`: the stored count, or 0 when absent. -/
def getWordCount (h : String → Nat) (wc : WordCounter) (word : String) : Nat :=
  match getWordNode h wc word with
  | none => 0
  | some wordNode => wordNode.2

/-- `WordCounter::initTable`: the given capacity, zero counters and a
null-initialised bucket array of that length. -/
def initTable (capacity : Nat) : WordCounter :=
  { capacity := capacity
    totalWordCount := 0
    uniqueWordCount := 0
    wordTable := List.replicate capacity ([] : Bucket) }

/-- The default constructor `WordCounter()`. -/
def mkDefault : WordCounter := initTable MIN_CAPACITY

/-- The constructor `WordCounter(int capacity)`. -/
def mkWithCapacity (capacity : Int) : WordCounter :=
  initTable (getValidCapacity capacity)

/-- `WordCounter::copyBucket`: rebuild a chain node by node, preserving
order, words and counts. -/
def copyBucket : Bucket → Bucket
  | [] => []
  | e :: rest => (e.1, e.2) :: copyBucket rest

/-- `WordCounter::copy` (used by the copy constructor and, after `clear`,
by the assignment operator): same capacity and counters, every bucket
deep-copied via `copyBucket`. -/
def copy (wc : WordCounter) : WordCounter :=
  { capacity := wc.capacity
    totalWordCount := wc.totalWordCount
    uniqueWordCount := wc.uniqueWordCount
    wordTable := wc.wordTable.map copyBucket }

/-- A public mutating operation on the table. -/
inductive Op where
  | ins (word : String)
  | del (word : String)
  deriving Repr, DecidableEq

/-- Apply one operation (`addWord` discarding the returned count, or
`removeWord`). -/
def applyOp (h : String → Nat) (wc : WordCounter) : Op → WordCounter
  | .ins word => (addWord h wc word).1
  | .del word => removeWord h wc word

/-- Run a sequence of operations left to right. -/
def runOps (h : String → Nat) (wc : WordCounter) (ops : List Op) : WordCounter :=
  ops.foldl (applyOp h) wc

/-- Modelled from the spec (for the refinement claim about lookup): the
number of times `key` was inserted since the most recent `remove(key)`,
starting from count `base`. -/
def specCountFrom (key : String) (base : Nat) (ops : List Op) : Nat :=
  ops.foldl
    (fun acc op =>
      match op with
      | .ins w => if w = key then acc + 1 else acc
      | .del w => if w = key then 0 else acc)
    base

/-- Structural well-formedness of the bucket array: it has length
`capacity`; the capacity is a member of the prime list; every stored
entry sits in the bucket its word hashes to; no word is stored twice;
every stored count is at least 1. -/
def TableOk (h : String → Nat) (wc : WordCounter) : Prop :=
  wc.wordTable.length = wc.capacity ∧
  wc.capacity ∈ primesList ∧
  (∀ i, i < wc.capacity →
    ∀ e ∈ wc.wordTable.getD i [], getBucket h e.1 wc.capacity = i) ∧
  (wc.wordTable.flatten.map Prod.fst).Nodup ∧
  (∀ e ∈ wc.wordTable.flatten, 1 ≤ e.2)

/-- Well-formedness of a table state, established below for every
reachable state: the structural invariant `TableOk` plus agreement of
the two counters with the stored entries (`totalWordCount` is the sum of
all stored counts, `uniqueWordCount` the number of stored entries). -/
def WF (h : String → Nat) (wc : WordCounter) : Prop :=
  TableOk h wc ∧
  wc.totalWordCount = (wc.wordTable.flatten.map Prod.snd).sum ∧
  wc.uniqueWordCount = wc.wordTable.flatten.length

instance (h : String → Nat) (wc : WordCounter) : Decidable (TableOk h wc) := by
  unfold TableOk; infer_instance

instance (h : String → Nat) (wc : WordCounter) : Decidable (WF h wc) := by
  unfold WF; infer_instance

/-- The states reachable through the public interface: the two
constructors, `addWord`, `removeWord`, and copying. -/
inductive Reachable (h : String → Nat) : WordCounter → Prop where
  | mkDefault : Reachable h mkDefault
  | mkCapacity (capacity : Int) : Reachable h (mkWithCapacity capacity)
  | add (wc : WordCounter) (word : String) :
      Reachable h wc → Reachable h (addWord h wc word).1
  | remove (wc : WordCounter) (word : String) :
      Reachable h wc → Reachable h (removeWord h wc word)
  | copies (wc : WordCounter) : Reachable h wc → Reachable h (copy wc)

/-- `MIN_LOAD_FACTOR ≤ uniqueWordCount / capacity ≤ MAX_LOAD_FACTOR` in
exact integer form. -/
def inBounds (wc : WordCounter) : Prop :=
  3 * wc.capacity ≤ 10 * wc.uniqueWordCount ∧
  4 * wc.uniqueWordCount ≤ 3 * wc.capacity

/-- Some capacity in the fixed size sequence would put a table with `u`
unique words inside the load-factor bounds. -/
def canRestore (u : Nat) : Prop :=
  ∃ c ∈ primesList, 3 * c ≤ 10 * u ∧ 4 * u ≤ 3 * c

instance (u : Nat) : Decidable (canRestore u) := by
  unfold canRestore; infer_instance

instance (wc : WordCounter) : Decidable (inBounds wc) := by
  unfold inBounds; infer_instance

/-- A concrete deterministic hash used for witnesses and counterexamples
(the spec admits any deterministic string hash). -/
def hLen : String → Nat := fun s => s.length

/-- The word made of `n` letters `a`; `aWord` is injective, giving an
unbounded supply of distinct words with distinct `hLen` hashes. -/
def aWord (n : Nat) : String := String.mk (List.replicate n 'a')

/-- Insert operations for a list of words. -/
def insOps (ws : List String) : List Op := ws.map Op.ins

/-- The table obtained by constructing with requested capacity 575124829
(a member of the size sequence) and inserting `k` distinct words. -/
def growState (k : Nat) : WordCounter :=
  runOps hLen (mkWithCapacity 575124829)
    (insOps ((List.range k).map (fun i => aWord (i + 1))))

/-- The nine distinct words `a`, `aa`, ..., `a^9`. -/
def shrinkWords : List String := (List.range 9).map (fun i => aWord (i + 1))

/-- Constructor with requested capacity 29, then nine distinct inserts
(load factor 9/29, within bounds). -/
def shrinkState : WordCounter :=
  runOps hLen (mkWithCapacity 29) (insOps shrinkWords)

/-- Nine distinct inserts into a default (capacity 11) table. -/
def scenarioB : WordCounter := runOps hLen mkDefault (insOps shrinkWords)

/-- Four distinct inserts into a default table: load factor 4/11, inside
the (0.30, 0.75) band. -/
def c4State : WordCounter :=
  runOps hLen mkDefault (insOps ((List.range 4).map (fun i => aWord (i + 1))))

/-- Eight distinct inserts into a default table: capacity still 11,
unique count 8, so one more fresh insert crosses the 0.75 load-factor
bound. -/
def grow8State : WordCounter :=
  runOps hLen mkDefault (insOps (shrinkWords.take 8))

/-- The operations of Scenario A: insert cat, dog, cat. -/
def scenarioAOps : List Op := [Op.ins "cat", Op.ins "dog", Op.ins "cat"]

/-! ### List helper lemmas -/

theorem getD_set_self {α : Type _} {T : List α} {b : Nat} (hb : b < T.length)
    (c d : α) : (T.set b c).getD b d = c := by
  induction T generalizing b with
  | nil => simp at hb
  | cons x xs ih =>
    cases b with
    | zero => rfl
    | succ n =>
      simpa [List.getD_cons_succ] using ih (by simpa using hb)

theorem getD_set_ne {α : Type _} {T : List α} {i b : Nat} (hne : i ≠ b)
    (c d : α) : (T.set b c).getD i d = T.getD i d := by
  induction T generalizing i b with
  | nil => rfl
  | cons x xs ih =>
    cases b with
    | zero =>
      cases i with
      | zero => exact absurd rfl hne
      | succ j => simp [List.getD_cons_succ]
    | succ n =>
      cases i with
      | zero => simp [List.getD_cons_zero]
      | succ j =>
        simpa [List.getD_cons_succ] using ih (fun hc => hne (by simp [hc]))

theorem flatten_replicate_nil :
    ∀ n : Nat, (List.replicate n ([] : Bucket)).flatten = []
  | 0 => rfl
  | n + 1 => by simp [List.replicate_succ, flatten_replicate_nil n]

theorem getD_replicate_nil {n i : Nat} :
    (List.replicate n ([] : Bucket)).getD i [] = [] := by
  induction n generalizing i with
  | zero => rfl
  | succ m ih =>
    cases i with
    | zero => rfl
    | succ j => simpa [List.replicate_succ, List.getD_cons_succ] using ih

theorem mem_getD_flatten {T : List Bucket} {i : Nat} {e : String × Nat}
    (he : e ∈ T.getD i []) : e ∈ T.flatten := by
  induction T generalizing i with
  | nil => simp [List.getD] at he
  | cons x xs ih =>
    cases i with
    | zero =>
      exact List.mem_append.2 (Or.inl (by simpa [List.getD_cons_zero] using he))
    | succ j =>
      exact List.mem_append.2 (Or.inr (ih (by simpa [List.getD_cons_succ] using he)))

theorem exists_bucket_of_mem_flatten {T : List Bucket} {e : String × Nat}
    (he : e ∈ T.flatten) : ∃ i, i < T.length ∧ e ∈ T.getD i [] := by
  induction T with
  | nil => simp at he
  | cons x xs ih =>
    rw [List.flatten_cons] at he
    rcases List.mem_append.1 he with hx | hxs
    · exact ⟨0, by simp, by simpa [List.getD_cons_zero] using hx⟩
    · obtain ⟨i, hi, hmem⟩ := ih hxs
      exact ⟨i + 1, by simpa using Nat.succ_lt_succ hi,
        by simpa [List.getD_cons_succ] using hmem⟩

theorem flatten_set_perm {T : List Bucket} {b : Nat} (hb : b < T.length)
    (c : Bucket) :
    List.Perm (T.set b c).flatten (c ++ (T.eraseIdx b).flatten) := by
  induction T generalizing b with
  | nil => simp at hb
  | cons x xs ih =>
    cases b with
    | zero => simp
    | succ n =>
      have hperm := ih (b := n) (by simpa using hb)
      calc ((x :: xs.set n c).flatten : List (String × Nat))
          = x ++ (xs.set n c).flatten := by simp
        _ ~ x ++ (c ++ (xs.eraseIdx n).flatten) := List.Perm.append_left x hperm
        _ ~ c ++ (x ++ (xs.eraseIdx n).flatten) := List.perm_append_comm_assoc x c _
        _ = c ++ ((x :: xs).eraseIdx (n + 1)).flatten := by simp [List.eraseIdx_cons_succ]

theorem flatten_decomp {T : List Bucket} {b : Nat} (hb : b < T.length) :
    List.Perm T.flatten (T.getD b [] ++ (T.eraseIdx b).flatten) := by
  induction T generalizing b with
  | nil => simp at hb
  | cons x xs ih =>
    cases b with
    | zero => simp [List.getD_cons_zero]
    | succ n =>
      have hperm := ih (b := n) (by simpa using hb)
      calc ((x :: xs).flatten : List (String × Nat))
          = x ++ xs.flatten := by simp
        _ ~ x ++ (xs.getD n [] ++ (xs.eraseIdx n).flatten) :=
            List.Perm.append_left x hperm
        _ ~ xs.getD n [] ++ (x ++ (xs.eraseIdx n).flatten) :=
            List.perm_append_comm_assoc x _ _
        _ = (x :: xs).getD (n + 1) [] ++ ((x :: xs).eraseIdx (n + 1)).flatten := by
            simp [List.getD_cons_succ, List.eraseIdx_cons_succ]

/-! ### Chain-level lemmas -/

theorem find?_key_of_mem_nodup {l : Bucket} {w : String} {n : Nat}
    (hnd : (l.map Prod.fst).Nodup) (hm : (w, n) ∈ l) :
    l.find? (fun e => e.1 == w) = some (w, n) := by
  induction l with
  | nil => simp at hm
  | cons x xs ih =>
    rcases List.mem_cons.1 hm with hx | hxs
    · subst hx
      simp [List.find?_cons]
    · have hx1 : x.1 ≠ w := by
        intro heq
        have hwmem : w ∈ xs.map Prod.fst := List.mem_map.2 ⟨(w, n), hxs, rfl⟩
        have hnotin : x.1 ∉ xs.map Prod.fst :=
          (List.nodup_cons.1 (by simpa using hnd)).1
        exact hnotin (heq ▸ hwmem)
      rw [List.find?_cons_of_neg _ (by simpa using hx1)]
      exact ih (List.nodup_cons.1 (by simpa using hnd)).2 hxs

theorem find?_key_eq_none {l : Bucket} {w : String} :
    l.find? (fun e => e.1 == w) = none ↔ ∀ n, (w, n) ∉ l := by
  rw [List.find?_eq_none]
  constructor
  · intro hall n hmem
    exact hall (w, n) hmem (by simp)
  · intro hall x hmem hbeq
    have hx1 : x.1 = w := by simpa using hbeq
    exact hall x.2 (by simpa [← hx1] using hmem)

theorem incrementFirst_find_self {l : Bucket} {w : String} {e : String × Nat}
    (hf : l.find? (fun x => x.1 == w) = some e) :
    (incrementFirst w l).find? (fun x => x.1 == w) = some (e.1, e.2 + 1) := by
  induction l with
  | nil => simp at hf
  | cons x xs ih =>
    by_cases hx : x.1 = w
    · rw [List.find?_cons_of_pos _ (by simpa using hx)] at hf
      cases hf
      simp [incrementFirst, hx, List.find?_cons_of_pos]
    · rw [List.find?_cons_of_neg _ (by simpa using hx)] at hf
      simp only [incrementFirst, if_neg hx]
      rw [List.find?_cons_of_neg _ (by simpa using hx)]
      exact ih hf

theorem incrementFirst_find_ne {l : Bucket} {w k : String} (hne : k ≠ w) :
    (incrementFirst w l).find? (fun x => x.1 == k) =
      l.find? (fun x => x.1 == k) := by
  induction l with
  | nil => rfl
  | cons x xs ih =>
    by_cases hx : x.1 = w
    · have hxk : x.1 ≠ k := fun hc => hne (by rw [← hc, hx])
      simp only [incrementFirst, if_pos hx]
      rw [List.find?_cons_of_neg _ (by simpa using hxk),
        List.find?_cons_of_neg _ (by simpa using hxk)]
    · simp only [incrementFirst, if_neg hx]
      by_cases hxk : x.1 = k
      · rw [List.find?_cons_of_pos _ (by simpa using hxk),
          List.find?_cons_of_pos _ (by simpa using hxk)]
      · rw [List.find?_cons_of_neg _ (by simpa using hxk),
          List.find?_cons_of_neg _ (by simpa using hxk)]
        exact ih

theorem incrementFirst_map_fst (w : String) (l : Bucket) :
    (incrementFirst w l).map Prod.fst = l.map Prod.fst := by
  induction l with
  | nil => rfl
  | cons x xs ih =>
    by_cases hx : x.1 = w
    · simp [incrementFirst, hx]
    · simp [incrementFirst, hx, ih]

theorem incrementFirst_snd_sum {l : Bucket} {w : String} {e : String × Nat}
    (hf : l.find? (fun x => x.1 == w) = some e) :
    ((incrementFirst w l).map Prod.snd).sum = (l.map Prod.snd).sum + 1 := by
  induction l with
  | nil => simp at hf
  | cons x xs ih =>
    by_cases hx : x.1 = w
    · simp only [incrementFirst, if_pos hx, List.map_cons, List.sum_cons]
      omega
    · rw [List.find?_cons_of_neg _ (by simpa using hx)] at hf
      simp only [incrementFirst, if_neg hx, List.map_cons, List.sum_cons, ih hf]
      omega

theorem incrementFirst_counts {l : Bucket} {w : String}
    (hc : ∀ x ∈ l, 1 ≤ x.2) : ∀ x ∈ incrementFirst w l, 1 ≤ x.2 := by
  induction l with
  | nil => intro x hx; simp [incrementFirst] at hx
  | cons y ys ih =>
    intro x hx
    by_cases hy : y.1 = w
    · simp only [incrementFirst, if_pos hy] at hx
      rcases List.mem_cons.1 hx with hx1 | hx2
      · subst hx1; have := hc y (List.mem_cons_self y ys); omega
      · exact hc x (List.mem_cons_of_mem y hx2)
    · simp only [incrementFirst, if_neg hy] at hx
      rcases List.mem_cons.1 hx with hx1 | hx2
      · subst hx1; exact hc x (List.mem_cons_self x ys)
      · exact ih (fun z hz => hc z (List.mem_cons_of_mem y hz)) x hx2

theorem eraseFirst_sublist (w : String) : ∀ l : Bucket, eraseFirst w l <+ l := by
  intro l
  induction l with
  | nil => simp [eraseFirst]
  | cons x xs ih =>
    by_cases hx : x.1 = w
    · simpa [eraseFirst, hx] using List.sublist_cons_self x xs
    · simpa [eraseFirst, hx] using List.Sublist.cons₂ x ih

theorem eraseFirst_find_none {l : Bucket} {w : String}
    (hnd : (l.map Prod.fst).Nodup) :
    (eraseFirst w l).find? (fun x => x.1 == w) = none := by
  induction l with
  | nil => rfl
  | cons x xs ih =>
    by_cases hx : x.1 = w
    · simp only [eraseFirst, if_pos hx]
      rw [List.find?_eq_none]
      intro y hy hbeq
      have hy1 : y.1 = w := by simpa using hbeq
      have hnotin : x.1 ∉ xs.map Prod.fst :=
        (List.nodup_cons.1 (by simpa using hnd)).1
      exact hnotin (by rw [hx, ← hy1]; exact List.mem_map.2 ⟨y, hy, rfl⟩)
    · simp only [eraseFirst, if_neg hx]
      rw [List.find?_cons_of_neg _ (by simpa using hx)]
      exact ih (List.nodup_cons.1 (by simpa using hnd)).2

theorem eraseFirst_find_ne {l : Bucket} {w k : String} (hne : k ≠ w) :
    (eraseFirst w l).find? (fun x => x.1 == k) =
      l.find? (fun x => x.1 == k) := by
  induction l with
  | nil => rfl
  | cons x xs ih =>
    by_cases hx : x.1 = w
    · have hxk : x.1 ≠ k := fun hc => hne (by rw [← hc, hx])
      simp only [eraseFirst, if_pos hx]
      rw [List.find?_cons_of_neg _ (by simpa using hxk)]
    · simp only [eraseFirst, if_neg hx]
      by_cases hxk : x.1 = k
      · rw [List.find?_cons_of_pos _ (by simpa using hxk),
          List.find?_cons_of_pos _ (by simpa using hxk)]
      · rw [List.find?_cons_of_neg _ (by simpa using hxk),
          List.find?_cons_of_neg _ (by simpa using hxk)]
        exact ih

theorem eraseFirst_snd_sum {l : Bucket} {w : String} {e : String × Nat}
    (hf : l.find? (fun x => x.1 == w) = some e) :
    (l.map Prod.snd).sum = ((eraseFirst w l).map Prod.snd).sum + e.2 := by
  induction l with
  | nil => simp at hf
  | cons x xs ih =>
    by_cases hx : x.1 = w
    · rw [List.find?_cons_of_pos _ (by simpa using hx)] at hf
      cases hf
      simp only [eraseFirst, if_pos hx, List.map_cons, List.sum_cons]
      omega
    · rw [List.find?_cons_of_neg _ (by simpa using hx)] at hf
      simp only [eraseFirst, if_neg hx, List.map_cons, List.sum_cons, ih hf]
      omega

theorem eraseFirst_length {l : Bucket} {w : String} {e : String × Nat}
    (hf : l.find? (fun x => x.1 == w) = some e) :
    l.length = (eraseFirst w l).length + 1 := by
  induction l with
  | nil => simp at hf
  | cons x xs ih =>
    by_cases hx : x.1 = w
    · simp [eraseFirst, hx]
    · rw [List.find?_cons_of_neg _ (by simpa using hx)] at hf
      simp [eraseFirst, hx, ih hf]

/-! ### WF accessors and lookup characterization -/

theorem wf_tableOk {h : String → Nat} {wc : WordCounter} (hwf : WF h wc) :
    TableOk h wc := hwf.1

theorem wf_total {h : String → Nat} {wc : WordCounter} (hwf : WF h wc) :
    wc.totalWordCount = (wc.wordTable.flatten.map Prod.snd).sum := hwf.2.1

theorem wf_unique {h : String → Nat} {wc : WordCounter} (hwf : WF h wc) :
    wc.uniqueWordCount = wc.wordTable.flatten.length := hwf.2.2

theorem tOk_len {h : String → Nat} {wc : WordCounter} (ht : TableOk h wc) :
    wc.wordTable.length = wc.capacity := ht.1

theorem tOk_capMem {h : String → Nat} {wc : WordCounter} (ht : TableOk h wc) :
    wc.capacity ∈ primesList := ht.2.1

theorem tOk_placement {h : String → Nat} {wc : WordCounter} (ht : TableOk h wc) :
    ∀ i, i < wc.capacity →
      ∀ e ∈ wc.wordTable.getD i [], getBucket h e.1 wc.capacity = i := ht.2.2.1

theorem tOk_nodup {h : String → Nat} {wc : WordCounter} (ht : TableOk h wc) :
    (wc.wordTable.flatten.map Prod.fst).Nodup := ht.2.2.2.1

theorem tOk_counts {h : String → Nat} {wc : WordCounter} (ht : TableOk h wc) :
    ∀ e ∈ wc.wordTable.flatten, 1 ≤ e.2 := ht.2.2.2.2

theorem primes_pos : ∀ p ∈ primesList, 0 < p := by decide

theorem primes_min : ∀ p ∈ primesList, MIN_CAPACITY ≤ p := by decide

theorem tOk_cap_pos {h : String → Nat} {wc : WordCounter} (ht : TableOk h wc) :
    0 < wc.capacity := primes_pos _ (tOk_capMem ht)

theorem getBucket_lt (h : String → Nat) (word : String) {capacity : Nat}
    (hcap : 0 < capacity) : getBucket h word capacity < capacity :=
  Nat.mod_lt _ hcap

theorem bucket_nodup {h : String → Nat} {wc : WordCounter} (ht : TableOk h wc)
    {i : Nat} (hi : i < wc.wordTable.length) :
    ((wc.wordTable.getD i []).map Prod.fst).Nodup := by
  have hperm :
      List.Perm (wc.wordTable.flatten.map Prod.fst)
        ((wc.wordTable.getD i []).map Prod.fst ++
          ((wc.wordTable.eraseIdx i).flatten.map Prod.fst)) := by
    have := (flatten_decomp hi).map Prod.fst
    simpa using this
  exact ((hperm.nodup_iff).1 (tOk_nodup ht)).of_append_left

theorem getWordNode_mem {h : String → Nat} {wc : WordCounter} {w : String}
    {e : String × Nat} (hf : getWordNode h wc w = some e) :
    e ∈ wc.wordTable.flatten ∧ e.1 = w := by
  unfold getWordNode at hf
  refine ⟨mem_getD_flatten (List.mem_of_find?_eq_some hf), ?_⟩
  have := List.find?_some hf
  simpa using this

theorem getWordNode_eq_some_of_mem {h : String → Nat} {wc : WordCounter}
    {w : String} {n : Nat} (ht : TableOk h wc)
    (hm : (w, n) ∈ wc.wordTable.flatten) :
    getWordNode h wc w = some (w, n) := by
  obtain ⟨i, hi, hmem⟩ := exists_bucket_of_mem_flatten hm
  have hcap : i < wc.capacity := by rw [← tOk_len ht]; exact hi
  have hplace := tOk_placement ht i hcap (w, n) hmem
  have hib : i = getBucket h w wc.capacity := hplace.symm
  subst hib
  unfold getWordNode
  exact find?_key_of_mem_nodup (bucket_nodup ht hi) hmem

theorem getWordNode_none_iff {h : String → Nat} {wc : WordCounter} {w : String}
    (ht : TableOk h wc) :
    getWordNode h wc w = none ↔ ∀ n, (w, n) ∉ wc.wordTable.flatten := by
  constructor
  · intro hnone n hmem
    rw [getWordNode_eq_some_of_mem ht hmem] at hnone
    cases hnone
  · intro hall
    unfold getWordNode
    rw [find?_key_eq_none]
    intro n hmem
    exact hall n (mem_getD_flatten hmem)

theorem getWordCount_of_mem {h : String → Nat} {wc : WordCounter}
    {w : String} {n : Nat} (ht : TableOk h wc)
    (hm : (w, n) ∈ wc.wordTable.flatten) : getWordCount h wc w = n := by
  unfold getWordCount
  rw [getWordNode_eq_some_of_mem ht hm]

theorem getWordCount_eq_zero_of_absent {h : String → Nat} {wc : WordCounter}
    {w : String} (habs : getWordNode h wc w = none) : getWordCount h wc w = 0 := by
  unfold getWordCount
  rw [habs]

theorem getWordCount_zero_iff {h : String → Nat} {wc : WordCounter} {w : String}
    (ht : TableOk h wc) :
    getWordCount h wc w = 0 ↔ getWordNode h wc w = none := by
  constructor
  · intro hz
    cases hf : getWordNode h wc w with
    | none => rfl
    | some e =>
      have hmem := (getWordNode_mem hf).1
      have hpos := tOk_counts ht e hmem
      unfold getWordCount at hz
      rw [hf] at hz
      simp only [] at hz
      omega
  · exact getWordCount_eq_zero_of_absent

/-! ### Rehash and resize lemmas -/

theorem rehash_fold_length {h : String → Nat} {nc : Nat} :
    ∀ (es : List (String × Nat)) (T : List Bucket),
      (List.foldl (rehashInsert h nc) T es).length = T.length := by
  intro es
  induction es with
  | nil => intro T; rfl
  | cons e es ih =>
    intro T
    rw [List.foldl_cons, ih]
    simp [rehashInsert]

theorem rehash_fold_flatten_perm {h : String → Nat} {nc : Nat} :
    ∀ (es : List (String × Nat)) (T : List Bucket), T.length = nc → 0 < nc →
      List.Perm (List.foldl (rehashInsert h nc) T es).flatten (es ++ T.flatten) := by
  intro es
  induction es with
  | nil => intro T _ _; simp
  | cons e es ih =>
    intro T hlen hpos
    have hb : getBucket h e.1 nc < T.length := by
      rw [hlen]; exact getBucket_lt h e.1 hpos
    have hlen' : (rehashInsert h nc T e).length = nc := by
      simp [rehashInsert, hlen]
    have hstep : List.Perm (rehashInsert h nc T e).flatten (e :: T.flatten) := by
      unfold rehashInsert
      refine (flatten_set_perm hb _).trans ?_
      have hdec := flatten_decomp hb (T := T)
      calc ((e :: T.getD (getBucket h e.1 nc) []) ++
              (T.eraseIdx (getBucket h e.1 nc)).flatten : List (String × Nat))
          = e :: (T.getD (getBucket h e.1 nc) [] ++
              (T.eraseIdx (getBucket h e.1 nc)).flatten) := by simp
        _ ~ e :: T.flatten := (hdec.symm).cons e
    calc (List.foldl (rehashInsert h nc) T (e :: es)).flatten
        = (List.foldl (rehashInsert h nc) (rehashInsert h nc T e) es).flatten := by
          rw [List.foldl_cons]
      _ ~ es ++ (rehashInsert h nc T e).flatten := ih _ hlen' hpos
      _ ~ es ++ (e :: T.flatten) := List.Perm.append_left es hstep
      _ ~ e :: (es ++ T.flatten) := List.perm_middle
      _ = (e :: es) ++ T.flatten := rfl

theorem rehash_fold_placement {h : String → Nat} {nc : Nat} :
    ∀ (es : List (String × Nat)) (T : List Bucket), T.length = nc → 0 < nc →
      (∀ i, i < nc → ∀ e ∈ T.getD i [], getBucket h e.1 nc = i) →
      ∀ i, i < nc →
        ∀ e ∈ (List.foldl (rehashInsert h nc) T es).getD i [],
          getBucket h e.1 nc = i := by
  intro es
  induction es with
  | nil => intro T _ _ hp; exact hp
  | cons e es ih =>
    intro T hlen hpos hp
    have hb : getBucket h e.1 nc < T.length := by
      rw [hlen]; exact getBucket_lt h e.1 hpos
    have hlen' : (rehashInsert h nc T e).length = nc := by
      simp [rehashInsert, hlen]
    rw [List.foldl_cons]
    refine ih _ hlen' hpos ?_
    intro i hi x hx
    unfold rehashInsert at hx
    by_cases hib : i = getBucket h e.1 nc
    · subst hib
      rw [getD_set_self hb] at hx
      rcases List.mem_cons.1 hx with hx1 | hx2
      · subst hx1; rfl
      · exact hp _ hi x hx2
    · rw [getD_set_ne hib] at hx
      exact hp i hi x hx

theorem getValidCapacity_mem (n : Int) : getValidCapacity n ∈ primesList := by
  unfold getValidCapacity
  cases hf : primesList.find? (fun primeNum => decide (n ≤ (Int.ofNat primeNum))) with
  | none => decide
  | some p => exact List.mem_of_find?_eq_some hf

theorem getValidCapacity_pos (n : Int) : 0 < getValidCapacity n :=
  primes_pos _ (getValidCapacity_mem n)

theorem resize_capacity (h : String → Nat) (wc : WordCounter) (n : Int) :
    (resize h wc n).capacity = getValidCapacity n := rfl

theorem resize_totalWordCount (h : String → Nat) (wc : WordCounter) (n : Int) :
    (resize h wc n).totalWordCount = wc.totalWordCount := rfl

theorem resize_uniqueWordCount (h : String → Nat) (wc : WordCounter) (n : Int) :
    (resize h wc n).uniqueWordCount = wc.uniqueWordCount := rfl

theorem resize_wordTable (h : String → Nat) (wc : WordCounter) (n : Int) :
    (resize h wc n).wordTable =
      List.foldl (rehashInsert h (getValidCapacity n))
        (List.replicate (getValidCapacity n) ([] : Bucket))
        wc.wordTable.flatten := by
  unfold resize
  rw [List.foldl_flatten]

theorem resize_flatten_perm (h : String → Nat) (wc : WordCounter) (n : Int) :
    List.Perm (resize h wc n).wordTable.flatten wc.wordTable.flatten := by
  rw [resize_wordTable]
  have hperm := @rehash_fold_flatten_perm h (getValidCapacity n)
    wc.wordTable.flatten (List.replicate (getValidCapacity n) ([] : Bucket))
    (List.length_replicate _ _) (getValidCapacity_pos n)
  simpa [flatten_replicate_nil] using hperm

theorem resize_TableOk {h : String → Nat} {wc : WordCounter}
    (ht : TableOk h wc) (n : Int) : TableOk h (resize h wc n) := by
  have hperm := resize_flatten_perm h wc n
  unfold TableOk
  refine ⟨?_, getValidCapacity_mem n, ?_, ?_, ?_⟩
  · rw [resize_wordTable, rehash_fold_length, List.length_replicate]
    rfl
  · rw [resize_wordTable, resize_capacity]
    exact rehash_fold_placement wc.wordTable.flatten _
      (List.length_replicate _ _) (getValidCapacity_pos n)
      (fun i _ x hx => by rw [getD_replicate_nil] at hx; cases hx)
  · exact ((hperm.map Prod.fst).nodup_iff).2 (tOk_nodup ht)
  · intro e he
    exact tOk_counts ht e (hperm.mem_iff.1 he)

theorem resize_WF {h : String → Nat} {wc : WordCounter} (hwf : WF h wc)
    (n : Int) : WF h (resize h wc n) := by
  have hperm := resize_flatten_perm h wc n
  unfold WF
  refine ⟨resize_TableOk (wf_tableOk hwf) n, ?_, ?_⟩
  · rw [resize_totalWordCount, wf_total hwf]
    exact ((hperm.map Prod.snd).sum_eq).symm
  · rw [resize_uniqueWordCount, wf_unique hwf]
    exact hperm.length_eq.symm

theorem resize_getWordNode {h : String → Nat} {wc : WordCounter}
    (ht : TableOk h wc) (n : Int) (w : String) :
    getWordNode h (resize h wc n) w = getWordNode h wc w := by
  have ht' := resize_TableOk ht n
  have hperm := resize_flatten_perm h wc n
  cases hf : getWordNode h wc w with
  | none =>
    rw [(getWordNode_none_iff ht').2]
    intro m hm
    exact ((getWordNode_none_iff ht).1 hf) m (hperm.mem_iff.1 hm)
  | some e =>
    obtain ⟨hmem, hkey⟩ := getWordNode_mem hf
    have hmem' : (w, e.2) ∈ (resize h wc n).wordTable.flatten := by
      rw [← hkey]
      exact hperm.mem_iff.2 hmem
    have := getWordNode_eq_some_of_mem ht' hmem'
    rw [this, ← hkey]

theorem resize_getWordCount {h : String → Nat} {wc : WordCounter}
    (ht : TableOk h wc) (n : Int) (w : String) :
    getWordCount h (resize h wc n) w = getWordCount h wc w := by
  unfold getWordCount
  rw [resize_getWordNode ht n w]

/-! ### The intermediate states of addWord / removeWord -/

theorem insertPre_capacity (h : String → Nat) (wc : WordCounter) (w : String) :
    (insertPre h wc w).capacity = wc.capacity := rfl

theorem insertPre_totalWordCount (h : String → Nat) (wc : WordCounter)
    (w : String) : (insertPre h wc w).totalWordCount = wc.totalWordCount := rfl

theorem insertPre_uniqueWordCount (h : String → Nat) (wc : WordCounter)
    (w : String) :
    (insertPre h wc w).uniqueWordCount = wc.uniqueWordCount + 1 := rfl

theorem insertPre_wordTable (h : String → Nat) (wc : WordCounter) (w : String) :
    (insertPre h wc w).wordTable =
      wc.wordTable.set (getBucket h w wc.capacity)
        ((w, NEW_WORD_COUNT) ::
          wc.wordTable.getD (getBucket h w wc.capacity) []) := rfl

theorem bumpPre_wordTable (h : String → Nat) (wc : WordCounter) (w : String) :
    (bumpPre h wc w).wordTable =
      wc.wordTable.set (getBucket h w wc.capacity)
        (incrementFirst w
          (wc.wordTable.getD (getBucket h w wc.capacity) [])) := rfl

theorem bucket_lt_len {h : String → Nat} {wc : WordCounter}
    (ht : TableOk h wc) (w : String) :
    getBucket h w wc.capacity < wc.wordTable.length := by
  rw [tOk_len ht]
  exact getBucket_lt h w (tOk_cap_pos ht)

theorem insertPre_flatten_perm {h : String → Nat} {wc : WordCounter}
    (ht : TableOk h wc) (w : String) :
    List.Perm (insertPre h wc w).wordTable.flatten
      ((w, NEW_WORD_COUNT) :: wc.wordTable.flatten) := by
  have hb := bucket_lt_len ht w
  show List.Perm (wc.wordTable.set (getBucket h w wc.capacity)
      ((w, NEW_WORD_COUNT) ::
        wc.wordTable.getD (getBucket h w wc.capacity) [])).flatten _
  refine (flatten_set_perm hb _).trans ?_
  have hdec := flatten_decomp hb (T := wc.wordTable)
  exact (hdec.symm).cons (w, NEW_WORD_COUNT)

theorem insertPre_TableOk {h : String → Nat} {wc : WordCounter} {w : String}
    (ht : TableOk h wc) (habs : getWordNode h wc w = none) :
    TableOk h (insertPre h wc w) := by
  have hb := bucket_lt_len ht w
  have hperm := insertPre_flatten_perm ht w
  unfold TableOk
  refine ⟨?_, ?_, ?_, ?_, ?_⟩
  · show (wc.wordTable.set _ _).length = wc.capacity
    rw [List.length_set]
    exact tOk_len ht
  · show wc.capacity ∈ primesList
    exact tOk_capMem ht
  · intro i hi x hx
    show getBucket h x.1 wc.capacity = i
    have hx' : x ∈ (wc.wordTable.set (getBucket h w wc.capacity)
        ((w, NEW_WORD_COUNT) ::
          wc.wordTable.getD (getBucket h w wc.capacity) [])).getD i [] := hx
    by_cases hib : i = getBucket h w wc.capacity
    · subst hib
      rw [getD_set_self hb] at hx'
      rcases List.mem_cons.1 hx' with hx1 | hx2
      · subst hx1; rfl
      · exact tOk_placement ht _ hi x hx2
    · rw [getD_set_ne hib] at hx'
      exact tOk_placement ht _ hi x hx'
  · rw [((hperm.map Prod.fst).nodup_iff)]
    rw [List.map_cons, List.nodup_cons]
    refine ⟨?_, tOk_nodup ht⟩
    intro hwmem
    obtain ⟨y, hy, hy1⟩ := List.mem_map.1 hwmem
    exact ((getWordNode_none_iff ht).1 habs) y.2
      (by rw [show (w, y.2) = y from Prod.ext hy1.symm rfl]; exact hy)
  · intro x hx
    rcases List.mem_cons.1 (hperm.mem_iff.1 hx) with hx1 | hx2
    · subst hx1; exact Nat.le_refl 1
    · exact tOk_counts ht x hx2

theorem insertPre_getWordNode_self {h : String → Nat} {wc : WordCounter}
    (ht : TableOk h wc) (w : String) :
    getWordNode h (insertPre h wc w) w = some (w, NEW_WORD_COUNT) := by
  have hb := bucket_lt_len ht w
  show ((wc.wordTable.set (getBucket h w wc.capacity) _).getD
      (getBucket h w wc.capacity) []).find? _ = _
  rw [getD_set_self hb]
  simp [List.find?_cons]

theorem insertPre_getWordNode_ne {h : String → Nat} {wc : WordCounter}
    (ht : TableOk h wc) {w k : String} (hne : k ≠ w) :
    getWordNode h (insertPre h wc w) k = getWordNode h wc k := by
  have hb := bucket_lt_len ht w
  unfold getWordNode
  rw [insertPre_wordTable, insertPre_capacity]
  by_cases hkb : getBucket h k wc.capacity = getBucket h w wc.capacity
  · rw [hkb, getD_set_self hb,
      List.find?_cons_of_neg _ (by simpa using Ne.symm hne)]
  · rw [getD_set_ne hkb]

theorem insertPre_getWordCount_ne {h : String → Nat} {wc : WordCounter}
    (ht : TableOk h wc) {w k : String} (hne : k ≠ w) :
    getWordCount h (insertPre h wc w) k = getWordCount h wc k := by
  unfold getWordCount
  rw [insertPre_getWordNode_ne ht hne]

theorem bumpPre_capacity (h : String → Nat) (wc : WordCounter) (w : String) :
    (bumpPre h wc w).capacity = wc.capacity := rfl

theorem bumpPre_totalWordCount (h : String → Nat) (wc : WordCounter)
    (w : String) : (bumpPre h wc w).totalWordCount = wc.totalWordCount := rfl

theorem bumpPre_uniqueWordCount (h : String → Nat) (wc : WordCounter)
    (w : String) : (bumpPre h wc w).uniqueWordCount = wc.uniqueWordCount := rfl

theorem bumpPre_flatten_perm {h : String → Nat} {wc : WordCounter}
    (ht : TableOk h wc) (w : String) :
    List.Perm (bumpPre h wc w).wordTable.flatten
      (incrementFirst w (wc.wordTable.getD (getBucket h w wc.capacity) []) ++
        (wc.wordTable.eraseIdx (getBucket h w wc.capacity)).flatten) := by
  have hb := bucket_lt_len ht w
  exact flatten_set_perm hb _

theorem bumpPre_TableOk {h : String → Nat} {wc : WordCounter} {w : String}
    (ht : TableOk h wc) : TableOk h (bumpPre h wc w) := by
  have hb := bucket_lt_len ht w
  have hperm := bumpPre_flatten_perm ht w
  have hdec := flatten_decomp hb (T := wc.wordTable)
  have hfst : ((bumpPre h wc w).wordTable.flatten.map Prod.fst).Perm
      (wc.wordTable.flatten.map Prod.fst) := by
    refine (hperm.map Prod.fst).trans ?_
    rw [List.map_append, incrementFirst_map_fst, ← List.map_append]
    exact (hdec.map Prod.fst).symm
  unfold TableOk
  refine ⟨?_, ?_, ?_, ?_, ?_⟩
  · show (wc.wordTable.set _ _).length = wc.capacity
    rw [List.length_set]
    exact tOk_len ht
  · show wc.capacity ∈ primesList
    exact tOk_capMem ht
  · intro i hi x hx
    show getBucket h x.1 wc.capacity = i
    have hx' : x ∈ (wc.wordTable.set (getBucket h w wc.capacity)
        (incrementFirst w
          (wc.wordTable.getD (getBucket h w wc.capacity) []))).getD i [] := hx
    by_cases hib : i = getBucket h w wc.capacity
    · subst hib
      rw [getD_set_self hb] at hx'
      have hx1 : x.1 ∈ (incrementFirst w
          (wc.wordTable.getD (getBucket h w wc.capacity) [])).map Prod.fst :=
        List.mem_map.2 ⟨x, hx', rfl⟩
      rw [incrementFirst_map_fst] at hx1
      obtain ⟨y, hy, hy1⟩ := List.mem_map.1 hx1
      rw [← hy1]
      exact tOk_placement ht _ hi y hy
    · rw [getD_set_ne hib] at hx'
      exact tOk_placement ht _ hi x hx'
  · exact (hfst.nodup_iff).2 (tOk_nodup ht)
  · intro x hx
    rcases List.mem_append.1 (hperm.mem_iff.1 hx) with hx1 | hx2
    · refine incrementFirst_counts (fun z hz => ?_) x hx1
      exact tOk_counts ht z (mem_getD_flatten hz)
    · refine tOk_counts ht x ?_
      exact hdec.mem_iff.2 (List.mem_append.2 (Or.inr hx2))

theorem bumpPre_getWordNode_self {h : String → Nat} {wc : WordCounter}
    {w : String} {e : String × Nat} (ht : TableOk h wc)
    (hfound : getWordNode h wc w = some e) :
    getWordNode h (bumpPre h wc w) w = some (e.1, e.2 + 1) := by
  have hb := bucket_lt_len ht w
  show ((wc.wordTable.set (getBucket h w wc.capacity) _).getD
      (getBucket h w wc.capacity) []).find? _ = _
  rw [getD_set_self hb]
  exact incrementFirst_find_self hfound

theorem bumpPre_getWordNode_ne {h : String → Nat} {wc : WordCounter}
    (ht : TableOk h wc) {w k : String} (hne : k ≠ w) :
    getWordNode h (bumpPre h wc w) k = getWordNode h wc k := by
  have hb := bucket_lt_len ht w
  unfold getWordNode
  rw [bumpPre_wordTable, bumpPre_capacity]
  by_cases hkb : getBucket h k wc.capacity = getBucket h w wc.capacity
  · rw [hkb, getD_set_self hb, incrementFirst_find_ne hne]
  · rw [getD_set_ne hkb]

theorem bumpPre_getWordCount_ne {h : String → Nat} {wc : WordCounter}
    (ht : TableOk h wc) {w k : String} (hne : k ≠ w) :
    getWordCount h (bumpPre h wc w) k = getWordCount h wc k := by
  unfold getWordCount
  rw [bumpPre_getWordNode_ne ht hne]

theorem bumpPre_snd_sum {h : String → Nat} {wc : WordCounter} {w : String}
    {e : String × Nat} (ht : TableOk h wc)
    (hfound : getWordNode h wc w = some e) :
    ((bumpPre h wc w).wordTable.flatten.map Prod.snd).sum =
      (wc.wordTable.flatten.map Prod.snd).sum + 1 := by
  have hb := bucket_lt_len ht w
  have hperm := bumpPre_flatten_perm ht w
  have hdec := flatten_decomp hb (T := wc.wordTable)
  rw [(hperm.map Prod.snd).sum_eq, (hdec.map Prod.snd).sum_eq]
  rw [List.map_append, List.map_append, List.sum_append, List.sum_append]
  rw [incrementFirst_snd_sum hfound]
  omega

theorem bumpPre_flatten_length {h : String → Nat} {wc : WordCounter}
    (ht : TableOk h wc) (w : String) :
    (bumpPre h wc w).wordTable.flatten.length =
      wc.wordTable.flatten.length := by
  have hb := bucket_lt_len ht w
  have hperm := bumpPre_flatten_perm ht w
  have hdec := flatten_decomp hb (T := wc.wordTable)
  rw [hperm.length_eq, hdec.length_eq, List.length_append, List.length_append]
  have : (incrementFirst w
      (wc.wordTable.getD (getBucket h w wc.capacity) [])).length =
      (wc.wordTable.getD (getBucket h w wc.capacity) []).length := by
    have hmapeq := incrementFirst_map_fst w
      (wc.wordTable.getD (getBucket h w wc.capacity) [])
    have := congrArg List.length hmapeq
    simpa using this
  omega

theorem removePre_capacity (h : String → Nat) (wc : WordCounter) (w : String)
    (e : String × Nat) : (removePre h wc w e).capacity = wc.capacity := rfl

theorem removePre_totalWordCount (h : String → Nat) (wc : WordCounter)
    (w : String) (e : String × Nat) :
    (removePre h wc w e).totalWordCount = wc.totalWordCount - e.2 := rfl

theorem removePre_uniqueWordCount (h : String → Nat) (wc : WordCounter)
    (w : String) (e : String × Nat) :
    (removePre h wc w e).uniqueWordCount = wc.uniqueWordCount - 1 := rfl

theorem removePre_wordTable (h : String → Nat) (wc : WordCounter) (w : String)
    (e : String × Nat) :
    (removePre h wc w e).wordTable =
      wc.wordTable.set (getBucket h w wc.capacity)
        (eraseFirst w (wc.wordTable.getD (getBucket h w wc.capacity) [])) := rfl

theorem removePre_flatten_perm {h : String → Nat} {wc : WordCounter}
    (ht : TableOk h wc) (w : String) (e : String × Nat) :
    List.Perm (removePre h wc w e).wordTable.flatten
      (eraseFirst w (wc.wordTable.getD (getBucket h w wc.capacity) []) ++
        (wc.wordTable.eraseIdx (getBucket h w wc.capacity)).flatten) := by
  have hb := bucket_lt_len ht w
  rw [removePre_wordTable]
  exact flatten_set_perm hb _

theorem removePre_TableOk {h : String → Nat} {wc : WordCounter} {w : String}
    {e : String × Nat} (ht : TableOk h wc) : TableOk h (removePre h wc w e) := by
  have hb := bucket_lt_len ht w
  have hperm := removePre_flatten_perm ht w e
  have hdec := flatten_decomp hb (T := wc.wordTable)
  unfold TableOk
  refine ⟨?_, ?_, ?_, ?_, ?_⟩
  · rw [removePre_wordTable, List.length_set, removePre_capacity]
    exact tOk_len ht
  · show wc.capacity ∈ primesList
    exact tOk_capMem ht
  · intro i hi x hx
    show getBucket h x.1 wc.capacity = i
    rw [removePre_wordTable] at hx
    by_cases hib : i = getBucket h w wc.capacity
    · subst hib
      rw [getD_set_self hb] at hx
      exact tOk_placement ht _ hi x ((eraseFirst_sublist w _).mem hx)
    · rw [getD_set_ne hib] at hx
      exact tOk_placement ht _ hi x hx
  · have hsub : ((eraseFirst w
        (wc.wordTable.getD (getBucket h w wc.capacity) [])).map Prod.fst ++
          ((wc.wordTable.eraseIdx (getBucket h w wc.capacity)).flatten.map
            Prod.fst)) <+
        ((wc.wordTable.getD (getBucket h w wc.capacity) []).map Prod.fst ++
          ((wc.wordTable.eraseIdx (getBucket h w wc.capacity)).flatten.map
            Prod.fst)) :=
      List.Sublist.append_right ((eraseFirst_sublist w _).map Prod.fst) _
    have hfst : List.Perm
        ((removePre h wc w e).wordTable.flatten.map Prod.fst)
        ((eraseFirst w
          (wc.wordTable.getD (getBucket h w wc.capacity) [])).map Prod.fst ++
            ((wc.wordTable.eraseIdx (getBucket h w wc.capacity)).flatten.map
              Prod.fst)) := by
      have := hperm.map Prod.fst
      simpa [List.map_append] using this
    have hall : ((wc.wordTable.getD (getBucket h w wc.capacity) []).map
        Prod.fst ++
          ((wc.wordTable.eraseIdx (getBucket h w wc.capacity)).flatten.map
            Prod.fst)).Nodup := by
      have := (hdec.map Prod.fst).nodup_iff
      rw [List.map_append] at this
      exact this.1 (tOk_nodup ht)
    exact (hfst.nodup_iff).2 (List.Nodup.sublist hsub hall)
  · intro x hx
    rcases List.mem_append.1 (hperm.mem_iff.1 hx) with hx1 | hx2
    · exact tOk_counts ht x
        (mem_getD_flatten ((eraseFirst_sublist w _).mem hx1))
    · exact tOk_counts ht x (hdec.mem_iff.2 (List.mem_append.2 (Or.inr hx2)))

theorem removePre_getWordNode_self {h : String → Nat} {wc : WordCounter}
    (ht : TableOk h wc) (w : String) (e : String × Nat) :
    getWordNode h (removePre h wc w e) w = none := by
  have hb := bucket_lt_len ht w
  unfold getWordNode
  rw [removePre_wordTable, removePre_capacity, getD_set_self hb]
  exact eraseFirst_find_none (bucket_nodup ht hb)

theorem removePre_getWordNode_ne {h : String → Nat} {wc : WordCounter}
    (ht : TableOk h wc) {w k : String} (hne : k ≠ w) (e : String × Nat) :
    getWordNode h (removePre h wc w e) k = getWordNode h wc k := by
  have hb := bucket_lt_len ht w
  unfold getWordNode
  rw [removePre_wordTable, removePre_capacity]
  by_cases hkb : getBucket h k wc.capacity = getBucket h w wc.capacity
  · rw [hkb, getD_set_self hb, eraseFirst_find_ne hne]
  · rw [getD_set_ne hkb]

theorem removePre_getWordCount_ne {h : String → Nat} {wc : WordCounter}
    (ht : TableOk h wc) {w k : String} (hne : k ≠ w) (e : String × Nat) :
    getWordCount h (removePre h wc w e) k = getWordCount h wc k := by
  unfold getWordCount
  rw [removePre_getWordNode_ne ht hne]

theorem removePre_snd_sum {h : String → Nat} {wc : WordCounter} {w : String}
    {e : String × Nat} (ht : TableOk h wc)
    (hfound : getWordNode h wc w = some e) :
    (wc.wordTable.flatten.map Prod.snd).sum =
      ((removePre h wc w e).wordTable.flatten.map Prod.snd).sum + e.2 := by
  have hb := bucket_lt_len ht w
  have hperm := removePre_flatten_perm ht w e
  have hdec := flatten_decomp hb (T := wc.wordTable)
  unfold getWordNode at hfound
  rw [(hperm.map Prod.snd).sum_eq, (hdec.map Prod.snd).sum_eq]
  rw [List.map_append, List.map_append, List.sum_append, List.sum_append]
  rw [eraseFirst_snd_sum hfound]
  omega

theorem removePre_flatten_length {h : String → Nat} {wc : WordCounter}
    {w : String} {e : String × Nat} (ht : TableOk h wc)
    (hfound : getWordNode h wc w = some e) :
    wc.wordTable.flatten.length =
      (removePre h wc w e).wordTable.flatten.length + 1 := by
  have hb := bucket_lt_len ht w
  have hperm := removePre_flatten_perm ht w e
  have hdec := flatten_decomp hb (T := wc.wordTable)
  unfold getWordNode at hfound
  rw [hperm.length_eq, hdec.length_eq, List.length_append, List.length_append]
  rw [eraseFirst_length hfound]
  omega

/-! ### addWord / removeWord case analyses -/

theorem getWordCount_setTotal (h : String → Nat) (X : WordCounter)
    (t : Nat) (w : String) :
    getWordCount h { X with totalWordCount := t } w = getWordCount h X w := rfl

theorem tableOk_setTotal (h : String → Nat) (X : WordCounter) (t : Nat) :
    TableOk h { X with totalWordCount := t } ↔ TableOk h X := Iff.rfl

theorem addWord_absent_eq {h : String → Nat} {wc : WordCounter} {w : String}
    (habs : getWordNode h wc w = none) :
    addWord h wc w =
      ({ (if 3 * (insertPre h wc w).capacity <
              4 * (insertPre h wc w).uniqueWordCount ∧
            (insertPre h wc w).capacity < MAX_CAPACITY then
          resize h (insertPre h wc w) (((insertPre h wc w).capacity : Int) * 2)
        else insertPre h wc w) with
        totalWordCount :=
          (if 3 * (insertPre h wc w).capacity <
              4 * (insertPre h wc w).uniqueWordCount ∧
            (insertPre h wc w).capacity < MAX_CAPACITY then
            resize h (insertPre h wc w)
              (((insertPre h wc w).capacity : Int) * 2)
          else insertPre h wc w).totalWordCount + 1 },
        NEW_WORD_COUNT) := by
  unfold addWord
  rw [habs]

theorem addWord_present_eq {h : String → Nat} {wc : WordCounter} {w : String}
    {e : String × Nat} (hfound : getWordNode h wc w = some e) :
    addWord h wc w =
      ({ bumpPre h wc w with
         totalWordCount := (bumpPre h wc w).totalWordCount + 1 }, e.2 + 1) := by
  unfold addWord
  rw [hfound]

theorem removeWord_absent {h : String → Nat} {wc : WordCounter} {w : String}
    (habs : getWordNode h wc w = none) : removeWord h wc w = wc := by
  unfold removeWord
  rw [habs]

theorem removeWord_present_eq {h : String → Nat} {wc : WordCounter}
    {w : String} {e : String × Nat} (hfound : getWordNode h wc w = some e) :
    removeWord h wc w =
      (if 10 * (removePre h wc w e).uniqueWordCount <
            3 * (removePre h wc w e).capacity ∧
          MIN_CAPACITY < (removePre h wc w e).capacity then
        resize h (removePre h wc w e) (((removePre h wc w e).capacity : Int) / 2)
      else removePre h wc w e) := by
  unfold removeWord
  rw [hfound]

theorem addWord_absent_spec {h : String → Nat} {wc : WordCounter} {w : String}
    (hwf : WF h wc) (habs : getWordNode h wc w = none) :
    (addWord h wc w).2 = NEW_WORD_COUNT ∧
    (addWord h wc w).1.totalWordCount = wc.totalWordCount + 1 ∧
    (addWord h wc w).1.uniqueWordCount = wc.uniqueWordCount + 1 ∧
    (addWord h wc w).1.capacity =
      (if 3 * wc.capacity < 4 * (wc.uniqueWordCount + 1) ∧
          wc.capacity < MAX_CAPACITY then
        getValidCapacity ((wc.capacity : Int) * 2)
      else wc.capacity) ∧
    WF h (addWord h wc w).1 ∧
    getWordCount h (addWord h wc w).1 w = NEW_WORD_COUNT ∧
    (∀ k, k ≠ w → getWordCount h (addWord h wc w).1 k = getWordCount h wc k) := by
  have ht := wf_tableOk hwf
  have ht1 := insertPre_TableOk ht habs
  have hperm1 := insertPre_flatten_perm ht w
  have hsum1 : ((insertPre h wc w).wordTable.flatten.map Prod.snd).sum =
      (wc.wordTable.flatten.map Prod.snd).sum + 1 := by
    rw [(hperm1.map Prod.snd).sum_eq]
    simp [NEW_WORD_COUNT]
    omega
  have hlen1 : (insertPre h wc w).wordTable.flatten.length =
      wc.wordTable.flatten.length + 1 := by
    rw [hperm1.length_eq]
    rfl
  rw [addWord_absent_eq habs]
  by_cases hg : 3 * (insertPre h wc w).capacity <
      4 * (insertPre h wc w).uniqueWordCount ∧
      (insertPre h wc w).capacity < MAX_CAPACITY
  · have hg' : 3 * wc.capacity < 4 * (wc.uniqueWordCount + 1) ∧
        wc.capacity < MAX_CAPACITY := hg
    rw [if_pos hg]
    have hperm2 := resize_flatten_perm h (insertPre h wc w)
      (((insertPre h wc w).capacity : Int) * 2)
    have ht2 := resize_TableOk ht1 (((insertPre h wc w).capacity : Int) * 2)
    refine ⟨rfl, rfl, rfl, ?_, ?_, ?_, ?_⟩
    · rw [if_pos hg']
      rfl
    · refine ⟨(tableOk_setTotal h _ _).2 ht2, ?_, ?_⟩
      · show (resize h (insertPre h wc w)
            (((insertPre h wc w).capacity : Int) * 2)).totalWordCount + 1 =
          ((resize h (insertPre h wc w)
            (((insertPre h wc w).capacity : Int) * 2)).wordTable.flatten.map
              Prod.snd).sum
        rw [resize_totalWordCount, insertPre_totalWordCount]
        have hs2 := (hperm2.map Prod.snd).sum_eq
        rw [wf_total hwf]
        omega
      · show (resize h (insertPre h wc w)
            (((insertPre h wc w).capacity : Int) * 2)).uniqueWordCount =
          (resize h (insertPre h wc w)
            (((insertPre h wc w).capacity : Int) * 2)).wordTable.flatten.length
        rw [resize_uniqueWordCount, insertPre_uniqueWordCount]
        have hl2 := hperm2.length_eq
        rw [wf_unique hwf]
        omega
    · rw [getWordCount_setTotal, resize_getWordCount ht1]
      unfold getWordCount
      rw [insertPre_getWordNode_self ht w]
    · intro k hk
      rw [getWordCount_setTotal, resize_getWordCount ht1,
        insertPre_getWordCount_ne ht hk]
  · have hg' : ¬(3 * wc.capacity < 4 * (wc.uniqueWordCount + 1) ∧
        wc.capacity < MAX_CAPACITY) := hg
    rw [if_neg hg]
    refine ⟨rfl, rfl, rfl, ?_, ?_, ?_, ?_⟩
    · rw [if_neg hg']
      rfl
    · refine ⟨(tableOk_setTotal h _ _).2 ht1, ?_, ?_⟩
      · show (insertPre h wc w).totalWordCount + 1 =
          ((insertPre h wc w).wordTable.flatten.map Prod.snd).sum
        rw [insertPre_totalWordCount, wf_total hwf]
        omega
      · show (insertPre h wc w).uniqueWordCount =
          (insertPre h wc w).wordTable.flatten.length
        rw [insertPre_uniqueWordCount, wf_unique hwf]
        omega
    · rw [getWordCount_setTotal]
      unfold getWordCount
      rw [insertPre_getWordNode_self ht w]
    · intro k hk
      rw [getWordCount_setTotal, insertPre_getWordCount_ne ht hk]

theorem addWord_present_spec {h : String → Nat} {wc : WordCounter} {w : String}
    {e : String × Nat} (hwf : WF h wc) (hfound : getWordNode h wc w = some e) :
    (addWord h wc w).2 = e.2 + 1 ∧
    (addWord h wc w).1.totalWordCount = wc.totalWordCount + 1 ∧
    (addWord h wc w).1.uniqueWordCount = wc.uniqueWordCount ∧
    (addWord h wc w).1.capacity = wc.capacity ∧
    WF h (addWord h wc w).1 ∧
    getWordCount h (addWord h wc w).1 w = e.2 + 1 ∧
    (∀ k, k ≠ w → getWordCount h (addWord h wc w).1 k = getWordCount h wc k) := by
  have ht := wf_tableOk hwf
  have ht1 : TableOk h (bumpPre h wc w) := bumpPre_TableOk ht
  rw [addWord_present_eq hfound]
  refine ⟨rfl, rfl, rfl, rfl, ?_, ?_, ?_⟩
  · refine ⟨(tableOk_setTotal h _ _).2 ht1, ?_, ?_⟩
    · show (bumpPre h wc w).totalWordCount + 1 =
        ((bumpPre h wc w).wordTable.flatten.map Prod.snd).sum
      rw [bumpPre_totalWordCount, wf_total hwf, bumpPre_snd_sum ht hfound]
    · show (bumpPre h wc w).uniqueWordCount =
        (bumpPre h wc w).wordTable.flatten.length
      rw [bumpPre_uniqueWordCount, wf_unique hwf, bumpPre_flatten_length ht w]
  · rw [getWordCount_setTotal]
    unfold getWordCount
    rw [bumpPre_getWordNode_self ht hfound]
  · intro k hk
    rw [getWordCount_setTotal, bumpPre_getWordCount_ne ht hk]

theorem removeWord_present_spec {h : String → Nat} {wc : WordCounter}
    {w : String} {e : String × Nat} (hwf : WF h wc)
    (hfound : getWordNode h wc w = some e) :
    (removeWord h wc w).totalWordCount = wc.totalWordCount - e.2 ∧
    (removeWord h wc w).uniqueWordCount = wc.uniqueWordCount - 1 ∧
    (removeWord h wc w).capacity =
      (if 10 * (wc.uniqueWordCount - 1) < 3 * wc.capacity ∧
          MIN_CAPACITY < wc.capacity then
        getValidCapacity ((wc.capacity : Int) / 2)
      else wc.capacity) ∧
    WF h (removeWord h wc w) ∧
    getWordCount h (removeWord h wc w) w = 0 ∧
    (∀ k, k ≠ w → getWordCount h (removeWord h wc w) k = getWordCount h wc k) := by
  have ht := wf_tableOk hwf
  have ht1 : TableOk h (removePre h wc w e) := removePre_TableOk ht
  have hsum1 := removePre_snd_sum ht hfound
  have hlen1 := removePre_flatten_length ht hfound
  have hwf1 : WF h (removePre h wc w e) := by
    refine ⟨ht1, ?_, ?_⟩
    · rw [removePre_totalWordCount, wf_total hwf]
      omega
    · rw [removePre_uniqueWordCount, wf_unique hwf]
      omega
  rw [removeWord_present_eq hfound]
  by_cases hs : 10 * (removePre h wc w e).uniqueWordCount <
      3 * (removePre h wc w e).capacity ∧
      MIN_CAPACITY < (removePre h wc w e).capacity
  · have hs' : 10 * (wc.uniqueWordCount - 1) < 3 * wc.capacity ∧
        MIN_CAPACITY < wc.capacity := hs
    rw [if_pos hs]
    have ht2 := resize_TableOk ht1 (((removePre h wc w e).capacity : Int) / 2)
    have hwf2 := resize_WF hwf1 (((removePre h wc w e).capacity : Int) / 2)
    refine ⟨?_, ?_, ?_, hwf2, ?_, ?_⟩
    · rw [resize_totalWordCount, removePre_totalWordCount]
    · rw [resize_uniqueWordCount, removePre_uniqueWordCount]
    · rw [if_pos hs']
      rfl
    · rw [resize_getWordCount ht1]
      unfold getWordCount
      rw [removePre_getWordNode_self ht w e]
    · intro k hk
      rw [resize_getWordCount ht1, removePre_getWordCount_ne ht hk]
  · have hs' : ¬(10 * (wc.uniqueWordCount - 1) < 3 * wc.capacity ∧
        MIN_CAPACITY < wc.capacity) := hs
    rw [if_neg hs]
    refine ⟨rfl, rfl, ?_, hwf1, ?_, ?_⟩
    · rw [if_neg hs']
      rfl
    · unfold getWordCount
      rw [removePre_getWordNode_self ht w e]
    · intro k hk
      rw [removePre_getWordCount_ne ht hk]

/-! ### Transition corollaries, constructors, copies, reachability -/

theorem WF_addWord {h : String → Nat} {wc : WordCounter} (hwf : WF h wc)
    (w : String) : WF h (addWord h wc w).1 := by
  cases hf : getWordNode h wc w with
  | none => exact (addWord_absent_spec hwf hf).2.2.2.2.1
  | some e => exact (addWord_present_spec hwf hf).2.2.2.2.1

theorem WF_removeWord {h : String → Nat} {wc : WordCounter} (hwf : WF h wc)
    (w : String) : WF h (removeWord h wc w) := by
  cases hf : getWordNode h wc w with
  | none => rw [removeWord_absent hf]; exact hwf
  | some e => exact (removeWord_present_spec hwf hf).2.2.2.1

theorem getWordCount_found {h : String → Nat} {wc : WordCounter} {w : String}
    {e : String × Nat} (hfound : getWordNode h wc w = some e) :
    getWordCount h wc w = e.2 := by
  unfold getWordCount
  rw [hfound]

theorem getWordCount_addWord {h : String → Nat} {wc : WordCounter}
    (hwf : WF h wc) (w k : String) :
    getWordCount h (addWord h wc w).1 k =
      if k = w then getWordCount h wc w + 1 else getWordCount h wc k := by
  by_cases hk : k = w
  · subst hk
    rw [if_pos rfl]
    cases hf : getWordNode h wc k with
    | none =>
      rw [(addWord_absent_spec hwf hf).2.2.2.2.2.1,
        getWordCount_eq_zero_of_absent hf]
      rfl
    | some e =>
      rw [(addWord_present_spec hwf hf).2.2.2.2.2.1, getWordCount_found hf]
  · rw [if_neg hk]
    cases hf : getWordNode h wc w with
    | none => exact (addWord_absent_spec hwf hf).2.2.2.2.2.2 k hk
    | some e => exact (addWord_present_spec hwf hf).2.2.2.2.2.2 k hk

theorem getWordCount_removeWord {h : String → Nat} {wc : WordCounter}
    (hwf : WF h wc) (w k : String) :
    getWordCount h (removeWord h wc w) k =
      if k = w then 0 else getWordCount h wc k := by
  by_cases hk : k = w
  · subst hk
    rw [if_pos rfl]
    cases hf : getWordNode h wc k with
    | none => rw [removeWord_absent hf, getWordCount_eq_zero_of_absent hf]
    | some e => exact (removeWord_present_spec hwf hf).2.2.2.2.1
  · rw [if_neg hk]
    cases hf : getWordNode h wc w with
    | none => rw [removeWord_absent hf]
    | some e => exact (removeWord_present_spec hwf hf).2.2.2.2.2 k hk

theorem addWord_ret {h : String → Nat} {wc : WordCounter} (hwf : WF h wc)
    (w : String) : (addWord h wc w).2 = getWordCount h wc w + 1 := by
  cases hf : getWordNode h wc w with
  | none =>
    rw [(addWord_absent_spec hwf hf).1, getWordCount_eq_zero_of_absent hf]
    rfl
  | some e =>
    rw [(addWord_present_spec hwf hf).1, getWordCount_found hf]

theorem totalWordCount_addWord {h : String → Nat} {wc : WordCounter}
    (hwf : WF h wc) (w : String) :
    (addWord h wc w).1.totalWordCount = wc.totalWordCount + 1 := by
  cases hf : getWordNode h wc w with
  | none => exact (addWord_absent_spec hwf hf).2.1
  | some e => exact (addWord_present_spec hwf hf).2.1

theorem initTable_flatten (c : Nat) : (initTable c).wordTable.flatten = [] :=
  flatten_replicate_nil c

theorem WF_initTable (h : String → Nat) {c : Nat} (hc : c ∈ primesList) :
    WF h (initTable c) := by
  refine ⟨⟨?_, hc, ?_, ?_, ?_⟩, ?_, ?_⟩
  · exact List.length_replicate c ([] : Bucket)
  · intro i hi x hx
    rw [show (initTable c).wordTable = List.replicate c ([] : Bucket) from rfl,
      getD_replicate_nil] at hx
    cases hx
  · rw [initTable_flatten]
    exact List.nodup_nil
  · intro x hx
    rw [initTable_flatten] at hx
    cases hx
  · rw [initTable_flatten]
    rfl
  · rw [initTable_flatten]
    rfl

theorem getWordNode_initTable (h : String → Nat) (c : Nat) (w : String) :
    getWordNode h (initTable c) w = none := by
  unfold getWordNode
  rw [show (initTable c).wordTable = List.replicate c ([] : Bucket) from rfl,
    getD_replicate_nil]
  rfl

theorem getWordCount_initTable (h : String → Nat) (c : Nat) (w : String) :
    getWordCount h (initTable c) w = 0 :=
  getWordCount_eq_zero_of_absent (getWordNode_initTable h c w)

theorem copyBucket_eq : ∀ l : Bucket, copyBucket l = l
  | [] => rfl
  | e :: rest => by rw [copyBucket, copyBucket_eq rest]

theorem copy_eq (wc : WordCounter) : copy wc = wc := by
  have hmap : wc.wordTable.map copyBucket = wc.wordTable := by
    rw [funext copyBucket_eq]
    simp
  unfold copy
  rw [hmap]

theorem WF_reachable {h : String → Nat} {wc : WordCounter}
    (hr : Reachable h wc) : WF h wc := by
  induction hr with
  | mkDefault => exact WF_initTable h (by decide)
  | mkCapacity c => exact WF_initTable h (getValidCapacity_mem c)
  | add wc' w _ ih => exact WF_addWord ih w
  | remove wc' w _ ih => exact WF_removeWord ih w
  | copies wc' _ ih => rw [copy_eq]; exact ih

theorem WF_applyOp {h : String → Nat} {wc : WordCounter} (hwf : WF h wc)
    (op : Op) : WF h (applyOp h wc op) := by
  cases op with
  | ins w => exact WF_addWord hwf w
  | del w => exact WF_removeWord hwf w

theorem WF_runOps {h : String → Nat} {wc : WordCounter} (hwf : WF h wc)
    (ops : List Op) : WF h (runOps h wc ops) := by
  induction ops generalizing wc with
  | nil => exact hwf
  | cons op ops ih => exact ih (WF_applyOp hwf op)

theorem Reachable_runOps {h : String → Nat} {wc : WordCounter}
    (hr : Reachable h wc) (ops : List Op) : Reachable h (runOps h wc ops) := by
  induction ops generalizing wc with
  | nil => exact hr
  | cons op ops ih =>
    refine ih ?_
    cases op with
    | ins w => exact Reachable.add wc w hr
    | del w => exact Reachable.remove wc w hr

theorem getWordCount_runOps {h : String → Nat} {wc : WordCounter}
    (hwf : WF h wc) (ops : List Op) (k : String) :
    getWordCount h (runOps h wc ops) k =
      specCountFrom k (getWordCount h wc k) ops := by
  induction ops generalizing wc with
  | nil => rfl
  | cons op ops ih =>
    have hstep : getWordCount h (applyOp h wc op) k =
        (match op with
         | Op.ins w => if w = k then getWordCount h wc k + 1
                       else getWordCount h wc k
         | Op.del w => if w = k then 0 else getWordCount h wc k) := by
      cases op with
      | ins w =>
        show getWordCount h (addWord h wc w).1 k =
          if w = k then getWordCount h wc k + 1 else getWordCount h wc k
        rw [getWordCount_addWord hwf w k]
        by_cases hk : k = w
        · subst hk
          rw [if_pos rfl]
        · rw [if_neg hk, if_neg (fun hc => hk hc.symm)]
      | del w =>
        show getWordCount h (removeWord h wc w) k =
          if w = k then 0 else getWordCount h wc k
        rw [getWordCount_removeWord hwf w k]
        by_cases hk : k = w
        · subst hk
          rw [if_pos rfl]
        · rw [if_neg hk, if_neg (fun hc => hk hc.symm)]
    show getWordCount h (runOps h (applyOp h wc op) ops) k = _
    rw [ih (WF_applyOp hwf op), hstep]
    cases op with
    | ins w => rfl
    | del w => rfl

/-! ### Ordering facts about the size sequence -/

set_option maxRecDepth 4000 in
theorem primes_sorted : List.Pairwise (· < ·) primesList := by decide

theorem primes_le_max : ∀ p ∈ primesList, p ≤ MAX_CAPACITY := by decide

theorem find?_sorted_least {n : Int} :
    ∀ l : List Nat, List.Pairwise (· < ·) l →
      ∀ q, l.find? (fun x => decide (n ≤ Int.ofNat x)) = some q →
        ∀ p ∈ l, n ≤ Int.ofNat p → q ≤ p := by
  intro l
  induction l with
  | nil => intro _ q hq; cases hq
  | cons x xs ih =>
    intro hpw q hq p hp hnp
    by_cases hx : n ≤ Int.ofNat x
    · rw [List.find?_cons_of_pos _ (by simpa using hx)] at hq
      cases hq
      rcases List.mem_cons.1 hp with hp1 | hp2
      · exact Nat.le_of_eq hp1.symm
      · exact Nat.le_of_lt ((List.pairwise_cons.1 hpw).1 p hp2)
    · rw [List.find?_cons_of_neg _ (by simpa using hx)] at hq
      rcases List.mem_cons.1 hp with hp1 | hp2
      · exact absurd (hp1 ▸ hnp) hx
      · exact ih (List.pairwise_cons.1 hpw).2 q hq p hp2 hnp

theorem getValidCapacity_least {n : Int} {p : Nat} (hp : p ∈ primesList)
    (hnp : n ≤ Int.ofNat p) : getValidCapacity n ≤ p := by
  unfold getValidCapacity
  cases hf : primesList.find? (fun primeNum => decide (n ≤ Int.ofNat primeNum)) with
  | none =>
    rw [List.find?_eq_none] at hf
    exact absurd (by simpa using hnp) (hf p hp)
  | some q => exact find?_sorted_least primesList primes_sorted q hf p hp hnp

theorem le_getValidCapacity {n : Int}
    (hex : ∃ p ∈ primesList, n ≤ Int.ofNat p) :
    n ≤ Int.ofNat (getValidCapacity n) := by
  unfold getValidCapacity
  cases hf : primesList.find? (fun primeNum => decide (n ≤ Int.ofNat primeNum)) with
  | none =>
    rw [List.find?_eq_none] at hf
    obtain ⟨p, hp, hnp⟩ := hex
    exact absurd (by simpa using hnp) (hf p hp)
  | some q =>
    have := List.find?_some hf
    simpa using this

theorem getValidCapacity_of_gt {n : Int}
    (hall : ∀ p ∈ primesList, Int.ofNat p < n) :
    getValidCapacity n = MAX_CAPACITY := by
  unfold getValidCapacity
  cases hf : primesList.find? (fun primeNum => decide (n ≤ Int.ofNat primeNum)) with
  | none => rfl
  | some q =>
    have hq := List.find?_some hf
    have hmem := List.mem_of_find?_eq_some hf
    exact absurd (hall q hmem) (by simpa using hq)

set_option maxRecDepth 4000 in
/-- The load-factor arithmetic behind the resize policy, checked for every
capacity in the size sequence: starting inside the load-factor band, an
insert that crosses the upper bound ends (after the policy's resize, or
no resize at the sequence maximum) either back inside the band or in a
state no sequence capacity could fix; likewise for a remove crossing the
lower bound. -/
theorem c4_arith : ∀ cap ∈ primesList,
    ((3 * (if cap < MAX_CAPACITY then getValidCapacity ((cap : Int) * 2) else cap) ≤
        10 * (3 * cap / 4 + 1) ∧
      4 * (3 * cap / 4 + 1) ≤
        3 * (if cap < MAX_CAPACITY then getValidCapacity ((cap : Int) * 2) else cap)) ∨
     ¬ canRestore (3 * cap / 4 + 1)) ∧
    ((3 * (if MIN_CAPACITY < cap then getValidCapacity ((cap : Int) / 2) else cap) ≤
        10 * ((3 * cap + 9) / 10 - 1) ∧
      4 * ((3 * cap + 9) / 10 - 1) ≤
        3 * (if MIN_CAPACITY < cap then getValidCapacity ((cap : Int) / 2) else cap)) ∨
     ¬ canRestore ((3 * cap + 9) / 10 - 1)) := by decide

/-! ### The word family used for concrete runs -/

theorem aWord_length (n : Nat) : (aWord n).length = n := by
  unfold aWord
  show (List.replicate n 'a').length = n
  exact List.length_replicate n 'a'

theorem aWord_inj {i j : Nat} (hij : aWord i = aWord j) : i = j := by
  have hl := congrArg String.length hij
  rwa [aWord_length, aWord_length] at hl

/-! ### The claims -/

/-- C1: for every sequence of `addWord`/`removeWord` operations starting
from a fresh table (default constructor or any requested capacity), and
for every key, `getWordCount` returns the number of times the key was
inserted since the most recent remove of that key, and 0 if it was never
inserted or was removed and not re-inserted since (`specCountFrom k 0`,
the spec-side count). -/
theorem claim_C1 (h : String → Nat) (c : Int) (ops : List Op) (k : String) :
    getWordCount h (runOps h mkDefault ops) k = specCountFrom k 0 ops ∧
    getWordCount h (runOps h (mkWithCapacity c) ops) k = specCountFrom k 0 ops := by
  constructor
  · have hwf := WF_initTable h (show MIN_CAPACITY ∈ primesList by decide)
    have hrun := getWordCount_runOps hwf ops k
    rw [getWordCount_initTable] at hrun
    exact hrun
  · have hwf := WF_initTable h (getValidCapacity_mem c)
    have hrun := getWordCount_runOps hwf ops k
    rw [getWordCount_initTable] at hrun
    exact hrun

/-- C3: in every state reachable by any sequence of operations from a
fresh table, `totalWordCount` equals the sum of the counts of all entries
currently stored in the bucket chains, and `uniqueWordCount` equals the
number of entries currently stored. -/
theorem claim_C3 (h : String → Nat) (wc : WordCounter) (hr : Reachable h wc) :
    wc.totalWordCount = (wc.wordTable.flatten.map Prod.snd).sum ∧
    wc.uniqueWordCount = wc.wordTable.flatten.length :=
  ⟨wf_total (WF_reachable hr), wf_unique (WF_reachable hr)⟩

/-- Witness for C3 at the concrete reachable state `c4State`. -/
theorem claim_C3_witness :
    c4State.totalWordCount = (c4State.wordTable.flatten.map Prod.snd).sum ∧
    c4State.uniqueWordCount = c4State.wordTable.flatten.length :=
  claim_C3 hLen c4State
    (Reachable_runOps Reachable.mkDefault
      (insOps ((List.range 4).map (fun i => aWord (i + 1)))))

/-- C8: copying a table produces a table with identical capacity,
uniqueCount, totalCount and lookup results for every key (`copyBucket`
rebuilds each chain element by element preserving order, so the copy is
even equal as a value), and — the embedding being purely functional, a
table value can never be mutated in place — running any operations on the
copy yields exactly the runs on the original and leaves the original
value untouched. -/
theorem claim_C8 (h : String → Nat) (wc : WordCounter) (ops : List Op)
    (k : String) :
    copy wc = wc ∧
    (copy wc).capacity = wc.capacity ∧
    (copy wc).uniqueWordCount = wc.uniqueWordCount ∧
    (copy wc).totalWordCount = wc.totalWordCount ∧
    getWordCount h (copy wc) k = getWordCount h wc k ∧
    runOps h (copy wc) ops = runOps h wc ops := by
  rw [copy_eq wc]
  exact ⟨rfl, rfl, rfl, rfl, rfl, rfl⟩

/-- C9: `removeWord` is idempotent — removing an absent key returns the
state unchanged (the source returns before the shrink check), so a second
remove of the same key is a no-op. -/
theorem claim_C9 (h : String → Nat) (wc : WordCounter) (w : String)
    (hwf : WF h wc) :
    (getWordNode h wc w = none → removeWord h wc w = wc) ∧
    removeWord h (removeWord h wc w) w = removeWord h wc w := by
  refine ⟨removeWord_absent, ?_⟩
  cases hf : getWordNode h wc w with
  | none => rw [removeWord_absent hf, removeWord_absent hf]
  | some e =>
    have h0 := (removeWord_present_spec hwf hf).2.2.2.2.1
    have habs := (getWordCount_zero_iff (wf_tableOk (WF_removeWord hwf w))).1 h0
    exact removeWord_absent habs

set_option maxRecDepth 4000 in
/-- Witness for C9 at the concrete state `c4State` and the key `a`. -/
theorem claim_C9_witness :
    (getWordNode hLen c4State (aWord 1) = none →
      removeWord hLen c4State (aWord 1) = c4State) ∧
    removeWord hLen (removeWord hLen c4State (aWord 1)) (aWord 1) =
      removeWord hLen c4State (aWord 1) :=
  claim_C9 hLen c4State (aWord 1) (by decide)

/-- C10: in every well-formed state (capacity positive because it is a
member of the size sequence), the bucket index computed by `getBucket` is
below the capacity, hence below the bucket array's length, so the
out-of-range branch of the embedded array lookup (`List.getD`'s default)
is unreachable for every access performed by the operations. -/
theorem claim_C10 (h : String → Nat) (wc : WordCounter) (w : String)
    (hwf : WF h wc) :
    getBucket h w wc.capacity < wc.capacity ∧
    getBucket h w wc.capacity < wc.wordTable.length ∧
    (wc.wordTable[getBucket h w wc.capacity]?).isSome := by
  have hcap := tOk_cap_pos (wf_tableOk hwf)
  have h1 := getBucket_lt h w hcap
  have h2 : getBucket h w wc.capacity < wc.wordTable.length := by
    rw [tOk_len (wf_tableOk hwf)]
    exact h1
  refine ⟨h1, h2, ?_⟩
  rw [List.getElem?_eq_getElem h2]
  rfl

set_option maxRecDepth 4000 in
/-- Witness for C10 at the concrete state `c4State` and the key `dog`. -/
theorem claim_C10_witness :
    getBucket hLen "dog" c4State.capacity < c4State.capacity ∧
    getBucket hLen "dog" c4State.capacity < c4State.wordTable.length ∧
    (c4State.wordTable[getBucket hLen "dog" c4State.capacity]?).isSome :=
  claim_C10 hLen c4State "dog" (by decide)

/-- Scenario A, for an arbitrary deterministic hash: inserting
`cat`, `dog`, `cat` into a fresh default table gives lookup(cat)=2,
lookup(dog)=1, uniqueCount 2 and totalCount 3. -/
theorem scenarioA_facts (h : String → Nat) :
    getWordCount h (runOps h mkDefault scenarioAOps) "cat" = 2 ∧
    getWordCount h (runOps h mkDefault scenarioAOps) "dog" = 1 ∧
    (runOps h mkDefault scenarioAOps).uniqueWordCount = 2 ∧
    (runOps h mkDefault scenarioAOps).totalWordCount = 3 := by
  have hrun : runOps h mkDefault scenarioAOps =
      (addWord h (addWord h (addWord h mkDefault "cat").1 "dog").1 "cat").1 := rfl
  have hwf0 : WF h mkDefault := WF_initTable h (by decide)
  have habs1 : getWordNode h mkDefault "cat" = none :=
    getWordNode_initTable h MIN_CAPACITY "cat"
  have s1 := addWord_absent_spec hwf0 habs1
  have hwf1 : WF h (addWord h mkDefault "cat").1 := WF_addWord hwf0 "cat"
  have hcat1 : getWordCount h (addWord h mkDefault "cat").1 "cat" = 1 :=
    s1.2.2.2.2.2.1
  have hdog1 : getWordCount h (addWord h mkDefault "cat").1 "dog" = 0 := by
    rw [getWordCount_addWord hwf0 "cat" "dog", if_neg (by decide)]
    exact getWordCount_initTable h MIN_CAPACITY "dog" 
  have habs2 : getWordNode h (addWord h mkDefault "cat").1 "dog" = none :=
    (getWordCount_zero_iff (wf_tableOk hwf1)).1 hdog1
  have s2 := addWord_absent_spec hwf1 habs2
  have hwf2 : WF h (addWord h (addWord h mkDefault "cat").1 "dog").1 :=
    WF_addWord hwf1 "dog"
  have hcat2 : getWordCount h
      (addWord h (addWord h mkDefault "cat").1 "dog").1 "cat" = 1 := by
    rw [getWordCount_addWord hwf1 "dog" "cat", if_neg (by decide), hcat1]
  have hdog2 : getWordCount h
      (addWord h (addWord h mkDefault "cat").1 "dog").1 "dog" = 1 :=
    s2.2.2.2.2.2.1
  cases hf : getWordNode h (addWord h (addWord h mkDefault "cat").1 "dog").1
      "cat" with
  | none =>
    rw [getWordCount_eq_zero_of_absent hf] at hcat2
    cases hcat2
  | some e =>
    have s3 := addWord_present_spec hwf2 hf
    have he2 : e.2 = 1 := by
      have := getWordCount_found hf
      rw [hcat2] at this
      exact this.symm
    refine ⟨?_, ?_, ?_, ?_⟩
    · rw [hrun, s3.2.2.2.2.2.1, he2]
    · rw [hrun, s3.2.2.2.2.2.2 "dog" (by decide), hdog2]
    · rw [hrun, s3.2.2.1, s2.2.2.1, s1.2.2.1]
      rfl
    · rw [hrun, s3.2.1, s2.2.1, s1.2.1]
      rfl

/-- C2: `addWord` of an absent key creates an entry with count 1 and
increments uniqueCount; for a present key it increments the entry's
count; in both cases totalCount grows by exactly 1 and the returned value
is the key's new count; and Scenario A (cat, dog, cat) holds for every
hash. -/
theorem claim_C2 (h : String → Nat) (wc : WordCounter) (w : String)
    (hwf : WF h wc) :
    (getWordNode h wc w = none →
      (addWord h wc w).1.uniqueWordCount = wc.uniqueWordCount + 1 ∧
      (addWord h wc w).2 = 1 ∧
      getWordCount h (addWord h wc w).1 w = 1) ∧
    (∀ e, getWordNode h wc w = some e →
      (addWord h wc w).1.uniqueWordCount = wc.uniqueWordCount ∧
      (addWord h wc w).2 = getWordCount h wc w + 1 ∧
      getWordCount h (addWord h wc w).1 w = getWordCount h wc w + 1) ∧
    (addWord h wc w).1.totalWordCount = wc.totalWordCount + 1 ∧
    (addWord h wc w).2 = getWordCount h (addWord h wc w).1 w ∧
    (getWordCount h (runOps h mkDefault scenarioAOps) "cat" = 2 ∧
     getWordCount h (runOps h mkDefault scenarioAOps) "dog" = 1 ∧
     (runOps h mkDefault scenarioAOps).uniqueWordCount = 2 ∧
     (runOps h mkDefault scenarioAOps).totalWordCount = 3) := by
  refine ⟨?_, ?_, totalWordCount_addWord hwf w, ?_, scenarioA_facts h⟩
  · intro habs
    have s := addWord_absent_spec hwf habs
    exact ⟨s.2.2.1, s.1, s.2.2.2.2.2.1⟩
  · intro e hfound
    have s := addWord_present_spec hwf hfound
    have he := getWordCount_found hfound
    exact ⟨s.2.2.1, by rw [s.1, he], by rw [s.2.2.2.2.2.1, he]⟩
  · cases hf : getWordNode h wc w with
    | none =>
      have s := addWord_absent_spec hwf hf
      rw [s.1, s.2.2.2.2.2.1]
    | some e =>
      have s := addWord_present_spec hwf hf
      rw [s.1, s.2.2.2.2.2.1]

set_option maxRecDepth 4000 in
/-- Witness for C2 at the concrete state `c4State` and the key `cat`. -/
theorem claim_C2_witness :
    (getWordNode hLen c4State "cat" = none →
      (addWord hLen c4State "cat").1.uniqueWordCount =
        c4State.uniqueWordCount + 1 ∧
      (addWord hLen c4State "cat").2 = 1 ∧
      getWordCount hLen (addWord hLen c4State "cat").1 "cat" = 1) ∧
    (∀ e, getWordNode hLen c4State "cat" = some e →
      (addWord hLen c4State "cat").1.uniqueWordCount =
        c4State.uniqueWordCount ∧
      (addWord hLen c4State "cat").2 = getWordCount hLen c4State "cat" + 1 ∧
      getWordCount hLen (addWord hLen c4State "cat").1 "cat" =
        getWordCount hLen c4State "cat" + 1) ∧
    (addWord hLen c4State "cat").1.totalWordCount =
      c4State.totalWordCount + 1 ∧
    (addWord hLen c4State "cat").2 =
      getWordCount hLen (addWord hLen c4State "cat").1 "cat" ∧
    (getWordCount hLen (runOps hLen mkDefault scenarioAOps) "cat" = 2 ∧
     getWordCount hLen (runOps hLen mkDefault scenarioAOps) "dog" = 1 ∧
     (runOps hLen mkDefault scenarioAOps).uniqueWordCount = 2 ∧
     (runOps hLen mkDefault scenarioAOps).totalWordCount = 3) :=
  claim_C2 hLen c4State "cat" (by decide)

theorem inBounds_mk {wc : WordCounter}
    (h1 : 3 * wc.capacity ≤ 10 * wc.uniqueWordCount)
    (h2 : 4 * wc.uniqueWordCount ≤ 3 * wc.capacity) : inBounds wc :=
  And.intro h1 h2

/-- C4: from a state whose load factor is inside
`[MIN_LOAD_FACTOR, MAX_LOAD_FACTOR]`, any `addWord` or `removeWord`
(in particular one that pushes the load factor outside the band) leaves
the table either inside the band again before returning, or in a state
that no capacity of the fixed size sequence could bring inside the band
(the size sequence's minimum or maximum bound would be violated). -/
theorem claim_C4 (h : String → Nat) (wc : WordCounter) (w : String)
    (hwf : WF h wc) (hin : inBounds wc) :
    (inBounds (addWord h wc w).1 ∨
      ¬ canRestore (addWord h wc w).1.uniqueWordCount) ∧
    (inBounds (removeWord h wc w) ∨
      ¬ canRestore (removeWord h wc w).uniqueWordCount) := by
  have hin1 : 3 * wc.capacity ≤ 10 * wc.uniqueWordCount := hin.1
  have hin2 : 4 * wc.uniqueWordCount ≤ 3 * wc.capacity := hin.2
  have hcapMem := tOk_capMem (wf_tableOk hwf)
  have hcapMin : MIN_CAPACITY ≤ wc.capacity := primes_min _ hcapMem
  constructor
  · cases hf : getWordNode h wc w with
    | some e =>
      left
      have s := addWord_present_spec hwf hf
      refine inBounds_mk ?_ ?_
      · rw [s.2.2.1, s.2.2.2.1]
        exact hin1
      · rw [s.2.2.1, s.2.2.2.1]
        exact hin2
    | none =>
      have s := addWord_absent_spec hwf hf
      have hu' := s.2.2.1
      have hc' := s.2.2.2.1
      by_cases hA : 3 * wc.capacity < 4 * (wc.uniqueWordCount + 1)
      · have hueq : wc.uniqueWordCount = 3 * wc.capacity / 4 := by omega
        have harith := (c4_arith wc.capacity hcapMem).1
        by_cases hB : wc.capacity < MAX_CAPACITY
        · have hc2 : (addWord h wc w).1.capacity =
              getValidCapacity ((wc.capacity : Int) * 2) := by
            rw [hc', if_pos ⟨hA, hB⟩]
          rw [if_pos hB] at harith
          rcases harith with ⟨ha1, ha2⟩ | hnr
          · left
            refine inBounds_mk ?_ ?_
            · rw [hc2, hu', hueq]
              exact ha1
            · rw [hc2, hu', hueq]
              exact ha2
          · right
            rw [hu', hueq]
            exact hnr
        · have hc2 : (addWord h wc w).1.capacity = wc.capacity := by
            rw [hc', if_neg (fun hc => hB hc.2)]
          rw [if_neg hB] at harith
          rcases harith with ⟨ha1, ha2⟩ | hnr
          · left
            refine inBounds_mk ?_ ?_
            · rw [hc2, hu', hueq]
              exact ha1
            · rw [hc2, hu', hueq]
              exact ha2
          · right
            rw [hu', hueq]
            exact hnr
      · left
        have hc2 : (addWord h wc w).1.capacity = wc.capacity := by
          rw [hc', if_neg (fun hc => hA hc.1)]
        refine inBounds_mk ?_ ?_
        · rw [hc2, hu']
          omega
        · rw [hc2, hu']
          omega
  · cases hf : getWordNode h wc w with
    | none =>
      left
      rw [removeWord_absent hf]
      exact hin
    | some e =>
      have s := removeWord_present_spec hwf hf
      have hu' := s.2.1
      have hc' := s.2.2.1
      have husz : 4 ≤ wc.uniqueWordCount := by
        have : (33 : Nat) ≤ 3 * wc.capacity := by
          have : (11 : Nat) ≤ wc.capacity := hcapMin
          omega
        omega
      by_cases hA : 10 * (wc.uniqueWordCount - 1) < 3 * wc.capacity
      · have hueq : wc.uniqueWordCount = (3 * wc.capacity + 9) / 10 := by omega
        have harith := (c4_arith wc.capacity hcapMem).2
        by_cases hB : MIN_CAPACITY < wc.capacity
        · have hc2 : (removeWord h wc w).capacity =
              getValidCapacity ((wc.capacity : Int) / 2) := by
            rw [hc', if_pos ⟨hA, hB⟩]
          rw [if_pos hB] at harith
          rcases harith with ⟨ha1, ha2⟩ | hnr
          · left
            refine inBounds_mk ?_ ?_
            · rw [hc2, hu', hueq]
              exact ha1
            · rw [hc2, hu', hueq]
              exact ha2
          · right
            rw [hu', hueq]
            exact hnr
        · have hc2 : (removeWord h wc w).capacity = wc.capacity := by
            rw [hc', if_neg (fun hc => hB hc.2)]
          rw [if_neg hB] at harith
          rcases harith with ⟨ha1, ha2⟩ | hnr
          · left
            refine inBounds_mk ?_ ?_
            · rw [hc2, hu', hueq]
              exact ha1
            · rw [hc2, hu', hueq]
              exact ha2
          · right
            rw [hu', hueq]
            exact hnr
      · left
        have hc2 : (removeWord h wc w).capacity = wc.capacity := by
          rw [hc', if_neg (fun hc => hA hc.1)]
        refine inBounds_mk ?_ ?_
        · rw [hc2, hu']
          omega
        · rw [hc2, hu']
          omega

set_option maxRecDepth 4000 in
/-- Witness for C4 at the concrete in-bounds state `c4State` (capacity 11,
four unique words, load factor 4/11) and the key `a`. -/
theorem claim_C4_witness :
    (inBounds (addWord hLen c4State (aWord 1)).1 ∨
      ¬ canRestore (addWord hLen c4State (aWord 1)).1.uniqueWordCount) ∧
    (inBounds (removeWord hLen c4State (aWord 1)) ∨
      ¬ canRestore (removeWord hLen c4State (aWord 1)).uniqueWordCount) :=
  claim_C4 hLen c4State (aWord 1) (by decide) (by decide)

set_option maxRecDepth 8000 in
/-- C5 counterexample: construct with capacity 29, insert nine distinct
words (load factor 9/29, in bounds), then remove one.  The removal pushes
the load factor below `MIN_LOAD_FACTOR` (8/29 < 0.30) with capacity above
the minimum, and the table shrinks to 17 — which is NOT a size `≤` half
of 29 (2·17 = 34 > 29), refuting the claim that the shrink target is the
next size that is at most half the current capacity. -/
theorem claim_C5_counterexample :
    shrinkState.capacity = 29 ∧
    shrinkState.uniqueWordCount = 9 ∧
    getWordNode hLen shrinkState (aWord 1) = some (aWord 1, 1) ∧
    10 * (shrinkState.uniqueWordCount - 1) < 3 * shrinkState.capacity ∧
    MIN_CAPACITY < shrinkState.capacity ∧
    (removeWord hLen shrinkState (aWord 1)).capacity = 17 ∧
    ¬ (2 * (removeWord hLen shrinkState (aWord 1)).capacity ≤
        shrinkState.capacity) := by
  decide

/-- C5 as amended: a `removeWord` that finds its word and leaves the load
factor below `MIN_LOAD_FACTOR` while the capacity is above the sequence
minimum shrinks the table to the SMALLEST size in the sequence that is
`≥ ⌊capacity/2⌋` (the source rounds the halved capacity up to the next
valid size, which can exceed half), never below the sequence minimum,
rehashing every remaining entry with its count unchanged. -/
theorem claim_C5 (h : String → Nat) (wc : WordCounter) (w : String)
    (e : String × Nat) (hwf : WF h wc) (hfound : getWordNode h wc w = some e)
    (htrig : 10 * (wc.uniqueWordCount - 1) < 3 * wc.capacity)
    (hmin : MIN_CAPACITY < wc.capacity) :
    (removeWord h wc w).capacity = getValidCapacity ((wc.capacity : Int) / 2) ∧
    (removeWord h wc w).capacity ∈ primesList ∧
    MIN_CAPACITY ≤ (removeWord h wc w).capacity ∧
    (wc.capacity : Int) / 2 ≤ Int.ofNat (removeWord h wc w).capacity ∧
    (∀ p ∈ primesList, (wc.capacity : Int) / 2 ≤ Int.ofNat p →
      (removeWord h wc w).capacity ≤ p) ∧
    (∀ k, k ≠ w → getWordCount h (removeWord h wc w) k = getWordCount h wc k) := by
  have s := removeWord_present_spec hwf hfound
  have hc : (removeWord h wc w).capacity =
      getValidCapacity ((wc.capacity : Int) / 2) := by
    rw [s.2.2.1, if_pos ⟨htrig, hmin⟩]
  have hcm : wc.capacity ≤ MAX_CAPACITY :=
    primes_le_max _ (tOk_capMem (wf_tableOk hwf))
  refine ⟨hc, ?_, ?_, ?_, ?_, s.2.2.2.2.2⟩
  · rw [hc]
    exact getValidCapacity_mem _
  · rw [hc]
    exact primes_min _ (getValidCapacity_mem _)
  · rw [hc]
    refine le_getValidCapacity ⟨MAX_CAPACITY, by decide, ?_⟩
    have hle : (wc.capacity : Int) ≤ Int.ofNat MAX_CAPACITY :=
      Int.ofNat_le.2 hcm
    omega
  · intro p hp hple
    rw [hc]
    exact getValidCapacity_least hp hple

set_option maxRecDepth 8000 in
/-- Witness for the amended C5 at the concrete state `shrinkState`. -/
theorem claim_C5_witness :
    (removeWord hLen shrinkState (aWord 1)).capacity =
      getValidCapacity ((shrinkState.capacity : Int) / 2) ∧
    (removeWord hLen shrinkState (aWord 1)).capacity ∈ primesList ∧
    MIN_CAPACITY ≤ (removeWord hLen shrinkState (aWord 1)).capacity ∧
    (shrinkState.capacity : Int) / 2 ≤
      Int.ofNat (removeWord hLen shrinkState (aWord 1)).capacity ∧
    (∀ p ∈ primesList, (shrinkState.capacity : Int) / 2 ≤ Int.ofNat p →
      (removeWord hLen shrinkState (aWord 1)).capacity ≤ p) ∧
    (∀ k, k ≠ aWord 1 →
      getWordCount hLen (removeWord hLen shrinkState (aWord 1)) k =
        getWordCount hLen shrinkState k) :=
  claim_C5 hLen shrinkState (aWord 1) (aWord 1, 1) (by decide) (by decide)
    (by decide) (by decide)

/-- C7: the capacity of every reachable table is a member of the fixed
ascending size sequence; construction with a requested capacity yields
`getValidCapacity` of the request, which is the smallest sequence value
`≥` the request when one exists and the sequence maximum when the request
exceeds every entry; and every `resize` validates its target through the
same `getValidCapacity`. -/
theorem claim_C7 (h : String → Nat) (wc : WordCounter) (hr : Reachable h wc)
    (c n : Int) (wc2 : WordCounter) :
    wc.capacity ∈ primesList ∧
    (mkWithCapacity c).capacity = getValidCapacity c ∧
    getValidCapacity c ∈ primesList ∧
    ((∃ p ∈ primesList, c ≤ Int.ofNat p) → c ≤ Int.ofNat (getValidCapacity c)) ∧
    (∀ p ∈ primesList, c ≤ Int.ofNat p → getValidCapacity c ≤ p) ∧
    ((∀ p ∈ primesList, Int.ofNat p < c) → getValidCapacity c = MAX_CAPACITY) ∧
    (resize h wc2 n).capacity = getValidCapacity n :=
  ⟨tOk_capMem (wf_tableOk (WF_reachable hr)), rfl, getValidCapacity_mem c,
    le_getValidCapacity, fun p hp hcp => getValidCapacity_least hp hcp,
    getValidCapacity_of_gt, rfl⟩

/-- Witness for C7 at the reachable state `c4State`, request 100 and
resize target 50. -/
theorem claim_C7_witness :
    c4State.capacity ∈ primesList ∧
    (mkWithCapacity 100).capacity = getValidCapacity 100 ∧
    getValidCapacity 100 ∈ primesList ∧
    ((∃ p ∈ primesList, 100 ≤ Int.ofNat p) →
      (100 : Int) ≤ Int.ofNat (getValidCapacity 100)) ∧
    (∀ p ∈ primesList, (100 : Int) ≤ Int.ofNat p →
      getValidCapacity 100 ≤ p) ∧
    ((∀ p ∈ primesList, Int.ofNat p < (100 : Int)) →
      getValidCapacity 100 = MAX_CAPACITY) ∧
    (resize hLen mkDefault 50).capacity = getValidCapacity 50 :=
  claim_C7 hLen c4State
    (Reachable_runOps Reachable.mkDefault
      (insOps ((List.range 4).map (fun i => aWord (i + 1))))) 100 50 mkDefault

theorem runOps_append (h : String → Nat) (wc : WordCounter)
    (l1 l2 : List Op) :
    runOps h wc (l1 ++ l2) = runOps h (runOps h wc l1) l2 := by
  unfold runOps
  exact List.foldl_append (applyOp h) wc l1 l2

theorem growState_succ (k : Nat) :
    growState (k + 1) = (addWord hLen (growState k) (aWord (k + 1))).1 := by
  unfold growState insOps
  rw [List.range_succ, List.map_append, List.map_append, runOps_append]
  rfl

/-- After `k ≤ 431343621` distinct inserts into a table constructed with
requested capacity 575124829 (a sequence member), the capacity is still
575124829 (the growth threshold `4·u > 3·575124829` first holds at
`u = 431343622`), the unique count is `k`, the state is well-formed, and
each word `a^j` has count 1 exactly when `1 ≤ j ≤ k`. -/
theorem growState_spec : ∀ k, k ≤ 431343621 →
    (growState k).capacity = 575124829 ∧
    (growState k).uniqueWordCount = k ∧
    WF hLen (growState k) ∧
    (∀ j, 1 ≤ j →
      getWordCount hLen (growState k) (aWord j) = if j ≤ k then 1 else 0) := by
  intro k
  induction k with
  | zero =>
    intro _
    have hgv : getValidCapacity 575124829 = 575124829 := by decide
    refine ⟨?_, rfl, ?_, ?_⟩
    · show (mkWithCapacity 575124829).capacity = 575124829
      rw [show (mkWithCapacity 575124829).capacity =
        getValidCapacity 575124829 from rfl, hgv]
    · exact WF_initTable hLen (getValidCapacity_mem 575124829)
    · intro j hj
      rw [if_neg (by omega)]
      exact getWordCount_initTable hLen _ _
  | succ k ih =>
    intro hk1
    obtain ⟨hcap, huniq, hwf, hcount⟩ := ih (by omega)
    have habs : getWordNode hLen (growState k) (aWord (k + 1)) = none := by
      refine (getWordCount_zero_iff (wf_tableOk hwf)).1 ?_
      rw [hcount (k + 1) (by omega), if_neg (by omega)]
    have s := addWord_absent_spec hwf habs
    rw [growState_succ k]
    refine ⟨?_, ?_, WF_addWord hwf _, ?_⟩
    · rw [s.2.2.2.1, if_neg ?_]
      · exact hcap
      · intro hcon
        have h1 := hcon.1
        rw [hcap, huniq] at h1
        omega
    · rw [s.2.2.1, huniq]
    · intro j hj
      rw [getWordCount_addWord hwf (aWord (k + 1)) (aWord j)]
      by_cases hjk : j = k + 1
      · subst hjk
        rw [if_pos rfl, hcount (k + 1) (by omega), if_neg (by omega),
          if_pos (Nat.le_refl _)]
      · have hne : aWord j ≠ aWord (k + 1) := fun hcon => hjk (aWord_inj hcon)
        rw [if_neg hne, hcount j hj]
        by_cases hjle : j ≤ k
        · rw [if_pos hjle, if_pos (by omega)]
        · rw [if_neg hjle, if_neg (by omega)]

set_option maxRecDepth 4000 in
/-- Scenario B, decided concretely: nine distinct inserts into a default
capacity-11 table leave the capacity strictly greater than 11 (it grows
to 23 on the ninth insert, when 9/11 > 0.75) with every key's count still
1 after the rehash. -/
theorem scenarioB_facts :
    11 < scenarioB.capacity ∧
    ∀ v ∈ shrinkWords, getWordCount hLen scenarioB v = 1 := by
  decide

/-- C6 counterexample: the state reached by constructing with capacity
575124829 and inserting 431343621 distinct words is reachable; inserting
one more fresh word pushes the load factor above `MAX_LOAD_FACTOR` with
the capacity below the sequence maximum, yet the table grows only to the
sequence maximum 993815743, which is LESS than 2× the current capacity
(2·575124829 = 1150249658) — refuting "grows to the next size in the
fixed sequence that is ≥ 2× the current capacity". -/
theorem claim_C6_counterexample :
    Reachable hLen (growState 431343621) ∧
    getWordNode hLen (growState 431343621) (aWord 431343622) = none ∧
    3 * (growState 431343621).capacity <
      4 * ((growState 431343621).uniqueWordCount + 1) ∧
    (growState 431343621).capacity < MAX_CAPACITY ∧
    (addWord hLen (growState 431343621) (aWord 431343622)).1.capacity =
      993815743 ∧
    ¬ (2 * (growState 431343621).capacity ≤
        (addWord hLen (growState 431343621) (aWord 431343622)).1.capacity) := by
  obtain ⟨hcap, huniq, hwf, hcount⟩ := growState_spec 431343621 (Nat.le_refl _)
  have habs : getWordNode hLen (growState 431343621) (aWord 431343622) = none := by
    refine (getWordCount_zero_iff (wf_tableOk hwf)).1 ?_
    rw [hcount 431343622 (by omega), if_neg (by omega)]
  have s := addWord_absent_spec hwf habs
  have hcform := s.2.2.2.1
  rw [hcap, huniq] at hcform
  rw [if_pos ⟨by omega, by decide⟩] at hcform
  have hcv : getValidCapacity (((575124829 : Nat) : Int) * 2) = 993815743 := by
    decide
  refine ⟨?_, habs, ?_, ?_, ?_, ?_⟩
  · exact Reachable_runOps (Reachable.mkCapacity 575124829) _
  · rw [hcap, huniq]
    omega
  · rw [hcap]
    decide
  · rw [hcform, hcv]
  · rw [hcap, hcform, hcv]
    decide

/-- C6 as amended: an `addWord` of a new key that pushes the load factor
above `MAX_LOAD_FACTOR` while the capacity is below the sequence maximum
grows the table to `getValidCapacity` of twice the capacity — the
smallest sequence size `≥ 2×` the current capacity whenever `2×` the
capacity does not exceed the sequence maximum, and the sequence maximum
otherwise (the original claim fails in that clamped case) — rehashing
every entry: the new key reads count 1 and every other key's count is
unchanged; in particular nine distinct keys inserted into a capacity-11
table leave capacity strictly greater than 11 with all nine counts 1. -/
theorem claim_C6 (h : String → Nat) (wc : WordCounter) (w : String)
    (hwf : WF h wc) (habs : getWordNode h wc w = none)
    (htrig : 3 * wc.capacity < 4 * (wc.uniqueWordCount + 1))
    (hmax : wc.capacity < MAX_CAPACITY) :
    (addWord h wc w).1.capacity = getValidCapacity ((wc.capacity : Int) * 2) ∧
    (addWord h wc w).1.capacity ∈ primesList ∧
    ((wc.capacity : Int) * 2 ≤ Int.ofNat MAX_CAPACITY →
      (wc.capacity : Int) * 2 ≤ Int.ofNat (addWord h wc w).1.capacity ∧
      ∀ p ∈ primesList, (wc.capacity : Int) * 2 ≤ Int.ofNat p →
        (addWord h wc w).1.capacity ≤ p) ∧
    getWordCount h (addWord h wc w).1 w = 1 ∧
    (∀ k, k ≠ w → getWordCount h (addWord h wc w).1 k = getWordCount h wc k) ∧
    (11 < scenarioB.capacity ∧
      ∀ v ∈ shrinkWords, getWordCount hLen scenarioB v = 1) := by
  have s := addWord_absent_spec hwf habs
  have hc : (addWord h wc w).1.capacity =
      getValidCapacity ((wc.capacity : Int) * 2) := by
    rw [s.2.2.2.1, if_pos ⟨htrig, hmax⟩]
  refine ⟨hc, ?_, ?_, s.2.2.2.2.2.1, s.2.2.2.2.2.2, scenarioB_facts⟩
  · rw [hc]
    exact getValidCapacity_mem _
  · intro hle
    constructor
    · rw [hc]
      exact le_getValidCapacity ⟨MAX_CAPACITY, by decide, hle⟩
    · intro p hp hple
      rw [hc]
      exact getValidCapacity_least hp hple

set_option maxRecDepth 4000 in
/-- Witness for the amended C6: the ninth distinct insert into a default
capacity-11 table. -/
theorem claim_C6_witness :
    (addWord hLen grow8State (aWord 9)).1.capacity =
      getValidCapacity ((grow8State.capacity : Int) * 2) ∧
    (addWord hLen grow8State (aWord 9)).1.capacity ∈ primesList ∧
    ((grow8State.capacity : Int) * 2 ≤ Int.ofNat MAX_CAPACITY →
      (grow8State.capacity : Int) * 2 ≤
        Int.ofNat (addWord hLen grow8State (aWord 9)).1.capacity ∧
      ∀ p ∈ primesList, (grow8State.capacity : Int) * 2 ≤ Int.ofNat p →
        (addWord hLen grow8State (aWord 9)).1.capacity ≤ p) ∧
    getWordCount hLen (addWord hLen grow8State (aWord 9)).1 (aWord 9) = 1 ∧
    (∀ k, k ≠ aWord 9 →
      getWordCount hLen (addWord hLen grow8State (aWord 9)).1 k =
        getWordCount hLen grow8State k) ∧
    (11 < scenarioB.capacity ∧
      ∀ v ∈ shrinkWords, getWordCount hLen scenarioB v = 1) :=
  claim_C6 hLen grow8State (aWord 9) (by decide) (by decide) (by decide)
    (by decide)

end WordCounterModel
